import Mathlib

/-!
Verification development for the tree-for-ai repository (src/main.rs).

Shallow embedding conventions:
* A filesystem path is a list of its components (`List String`): directory
  segments followed by the final file name.  The root is likewise a
  component list.
* Rust `String` is modelled by Lean `String` (a list of `Char`); the
  ASCII-range case mapping `lowerChar` models `str::to_lowercase`.
* The external `git` invocations are modelled by an environment record
  holding each command's outcome (`Except Unit CmdResult`), mirroring
  `std::process::Command::output()`.
* The filesystem walked by `walkdir` is modelled by an inductive tree of
  named files and directories.
-/

namespace TreeForAI

/-- ASCII uppercase letter test (`c` in `A`..`Z`), in numeric form. -/
def isUpperAlpha (c : Char) : Bool := 65 ≤ c.toNat && c.toNat ≤ 90

/-- ASCII lowercase letter test (`c` in `a`..`z`), the regex class `[a-z]`. -/
def isLowerAlpha (c : Char) : Bool := 97 ≤ c.toNat && c.toNat ≤ 122

/-- ASCII lowering of a single character; models the case mapping used by
`to_lowercase` on the filename characters the program inspects. -/
def lowerChar (c : Char) : Char :=
  if isUpperAlpha c then Char.ofNat (c.toNat + 32) else c

/-- Models `str::to_lowercase`. -/
def strLower (s : String) : String := ⟨s.data.map lowerChar⟩

/-- Models `str::starts_with`. -/
def strLeads (s pre : String) : Bool :=
  s.data.take pre.data.length == pre.data

/-- Models `str::ends_with`. -/
def strTailIs (s suf : String) : Bool :=
  suf.data.length ≤ s.data.length &&
    s.data.drop (s.data.length - suf.data.length) == suf.data

/-- The base name of a path: its last component, models `Path::file_name`. -/
def fileNameOf (p : List String) : Option String := p.getLast?

/-- Index of the last `.` in a character list. -/
def lastDotIdx (l : List Char) : Option Nat :=
  ((List.range l.length).filter (fun i => l.get? i == some '.')).getLast?

/-- Extension of a file name, models the split in `Path::extension`:
no extension when there is no dot, or the only dot is the leading one,
or the name is `..`. -/
def extOfName (name : String) : Option String :=
  if name == ".." then none
  else
    match lastDotIdx name.data with
    | none => none
    | some 0 => none
    | some i => some ⟨name.data.drop (i + 1)⟩

/-- Models `p.extension().and_then(OsStr::to_str).map(|s| s.to_lowercase())`
from `is_relevant_path`. -/
def extOf (p : List String) : Option String :=
  ((fileNameOf p).bind extOfName).map strLower

/-- Boundary class of the regex `(?:^|[^a-z])` / `(?:$|[^a-z])`:
string edge (`none`) or a character outside `a`..`z`. -/
def reBnd : Option Char → Bool
  | none => true
  | some c => !(isLowerAlpha c)

/-- Does word `w` occur in `s` at index `i`, with both neighbours accepted
by the boundary test `bnd`? -/
def occAt (bnd : Option Char → Bool) (s w : List Char) (i : Nat) : Bool :=
  ((s.drop i).take w.length == w) &&
    bnd (if i == 0 then none else s.get? (i - 1)) &&
    bnd (s.get? (i + w.length))

/-- Does word `w` occur anywhere in `s` with `bnd`-boundaries on both sides? -/
def tokenHit (bnd : Option Char → Bool) (s w : List Char) : Bool :=
  (List.range (s.length + 1)).any (occAt bnd s w)

/-- Models `Regex::new(r"(?:^|[^a-z])secrets?(?:$|[^a-z])").is_match`:
an occurrence of `secret` or of `secrets` bounded on both sides by the
start/end of the string or a character outside `a`..`z`. -/
def secretRegexMatch (s : List Char) : Bool :=
  tokenHit reBnd s ("secret").data || tokenHit reBnd s ("secrets").data

/-- Models `is_secret_path` (src/main.rs lines 371-384). -/
def is_secret_path (p : List String) : Bool :=
  let fname := strLower ((fileNameOf p).getD "")
  fname == ".env" || strLeads fname ".env." || secretRegexMatch fname.data

/-- The `deny_files` array of `is_relevant_path`. -/
def deny_files : List String := [".ds_store", "thumbs.db"]

/-- The `lock_names` array of `is_relevant_path`. -/
def lock_names : List String :=
  ["yarn.lock", "package-lock.json", "pnpm-lock.yaml", "pipfile.lock",
   "poetry.lock"]

/-- The `special` array of `is_relevant_path` (extensionless build files). -/
def special_names : List String :=
  ["Dockerfile", "Makefile", "dockerfile", "Dockerfile.dev"]

/-- The `relevant_exts` array of `is_relevant_path`. -/
def relevant_exts : List String :=
  ["md", "rst", "adoc", "txt", "json", "jsonc", "yaml", "yml", "toml",
   "ini", "cfg", "conf", "env", "properties",
   "html", "htm", "css", "scss", "less",
   "rs", "py", "pyi", "ipynb",
   "js", "cjs", "mjs", "jsx", "ts", "tsx",
   "sh", "bash", "zsh", "ps1", "bat", "cmd",
   "go", "java", "kt", "kts",
   "c", "h", "cpp", "hpp", "cc", "hh",
   "cs", "vb", "php", "rb", "swift", "scala", "erl", "ex", "exs",
   "sql", "prisma", "graphql", "gql",
   "gradle", "groovy", "tf", "sln", "csproj", "fsproj", "vbproj",
   "vcxproj",
   "editorconfig", "gitattributes", "gitignore", "eslintignore",
   "prettierignore"]

/-- The `asset_exts` array of `is_relevant_path`. -/
def asset_exts : List String :=
  ["png", "jpg", "jpeg", "gif", "svg", "webp", "ico", "bmp", "tiff",
   "mp3", "wav", "flac", "mp4", "mov", "mkv", "avi",
   "woff", "woff2", "eot", "ttf", "otf", "pdf",
   "zip", "tar", "gz", "tgz", "bz2", "7z", "rar"]

/-- The `FilterOptions` struct (src/main.rs lines 281-285). -/
structure FilterOptions where
  include_assets : Bool
  include_binaries : Bool
  hide_secrets : Bool

/-- The early-return block of `is_relevant_path` (lines 290-310): the base
name is a junk file, ends with `.lock`, or is a well-known lock name. -/
def nameRejected (p : List String) : Bool :=
  match fileNameOf p with
  | none => false
  | some name =>
    let lower := strLower name
    deny_files.contains lower || strTailIs lower ".lock" ||
      lock_names.contains lower

/-- The `special` check of `is_relevant_path` (lines 346-351). -/
def specialAccepted (p : List String) : Bool :=
  match fileNameOf p with
  | none => false
  | some stem => special_names.contains stem

/-- Models `is_relevant_path` (src/main.rs lines 289-368), preserving the
early-return order: junk/lock rejection, secret force-include, binaries,
special names, then extension membership. -/
def is_relevant_path (p : List String) (opts : FilterOptions) : Bool :=
  if nameRejected p then false
  else if !opts.hide_secrets && is_secret_path p then true
  else if opts.include_binaries then true
  else if specialAccepted p then true
  else
    match extOf p with
    | some e => relevant_exts.contains e ||
        (opts.include_assets && asset_exts.contains e)
    | none => false

/-- Modelled from the spec: the evaluation chain of section 4.2 with the
secret rule (step 3) deleted, i.e. relevance with no special treatment of
secret-like names.  Used to state the amended C1. -/
def is_relevant_plain (p : List String) (opts : FilterOptions) : Bool :=
  if nameRejected p then false
  else if opts.include_binaries then true
  else if specialAccepted p then true
  else
    match extOf p with
    | some e => relevant_exts.contains e ||
        (opts.include_assets && asset_exts.contains e)
    | none => false

/-! ## The tree model

`TreeNode` mirrors the Rust struct (name, an ordered map from child
directory names to child nodes, a list of file names).  The `BTreeMap` is
modelled by `DirMap`, an association list kept sorted in ascending raw
`String` order (UTF-8 byte order coincides with codepoint order). -/

mutual
/-- The `TreeNode` struct (src/main.rs lines 62-69). -/
inductive TreeNode where
  | node (name : String) (dirs : DirMap) (files : List String)

/-- The `BTreeMap<String, TreeNode>` field, as a key-sorted association
list. -/
inductive DirMap where
  | nil
  | cons (key : String) (tree : TreeNode) (rest : DirMap)
end

/-- Models `TreeNode::new`. -/
def TreeNode.new (name : String) : TreeNode := .node name .nil []

def TreeNode.name : TreeNode → String
  | .node n _ _ => n

def TreeNode.dirs : TreeNode → DirMap
  | .node _ ds _ => ds

def TreeNode.files : TreeNode → List String
  | .node _ _ fs => fs

/-- Lookup in the ordered map, models `BTreeMap::get` /
the read half of `BTreeMap::entry`. -/
def dirFind (k : String) : DirMap → Option TreeNode
  | .nil => none
  | .cons a t rest => if k = a then some t else dirFind k rest

/-- Insert-or-replace at key `k`, keeping keys in ascending order; models
writing the cursor's final value back through `BTreeMap::entry`. -/
def dirUpsert (k : String) (v : TreeNode) : DirMap → DirMap
  | .nil => .cons k v .nil
  | .cons a t rest =>
    if k < a then .cons k v (.cons a t rest)
    else if k = a then .cons k v rest
    else .cons a t (dirUpsert k v rest)

/-- `max_depth.map(|m| depth > m).unwrap_or(false)` from `build_tree`. -/
def mdGt (md : Option Nat) (depth : Nat) : Bool :=
  match md with
  | some m => decide (m < depth)
  | none => false

/-- `max_depth.map(|m| depth <= m).unwrap_or(true)` from `build_tree`. -/
def mdAllows (md : Option Nat) (depth : Nat) : Bool :=
  match md with
  | some m => decide (depth ≤ m)
  | none => true

/-- The per-path insertion loop of `build_tree` (src/main.rs lines
399-419), written functionally: `total` is `parts.len()`, `i` the index
of the component at the cursor.  A cursor mutation through
`entry(name).or_insert_with_key` becomes a `dirFind`-or-`TreeNode.new`
followed by `dirUpsert` of the updated child. -/
def insertGo (md : Option Nat) (total : Nat) : Nat → List String → TreeNode → TreeNode
  | _, [], t => t
  | _, [name], .node n ds fs =>
    if mdAllows md total then .node n ds (fs ++ [name]) else .node n ds fs
  | i, name :: next :: rest, .node n ds fs =>
    if mdGt md (i + 1) then .node n ds fs
    else
      .node n
        (dirUpsert name
          (insertGo md total (i + 1) (next :: rest)
            ((dirFind name ds).getD (TreeNode.new name))) ds) fs

/-- Same insertion with the depth test expressed uniformly through the
running index (`depth = i + 1` also at the final component, since there
`total = i + 1`); proved equal to `insertGo` below and used in proofs. -/
def insS (md : Option Nat) : Nat → List String → TreeNode → TreeNode
  | _, [], t => t
  | i, [name], .node n ds fs =>
    if mdGt md (i + 1) then .node n ds fs else .node n ds (fs ++ [name])
  | i, name :: next :: rest, .node n ds fs =>
    if mdGt md (i + 1) then .node n ds fs
    else
      .node n
        (dirUpsert name
          (insS md (i + 1) (next :: rest)
            ((dirFind name ds).getD (TreeNode.new name))) ds) fs

/-- Is `root` a component-wise leading segment of `p`?  Models the success
test of `p.strip_prefix(root)`. -/
def leadsWith : List String → List String → Bool
  | [], _ => true
  | _ :: _, [] => false
  | a :: as, b :: bs => a == b && leadsWith as bs

/-- Models `p.strip_prefix(root).unwrap_or(p)` from `build_tree`. -/
def stripRoot (root p : List String) : List String :=
  if leadsWith root p then p.drop root.length else p

/-- Root node name (lines 388-392): the root's base name, or the full
root string when it has none. -/
def rootName (root : List String) : String :=
  match root.getLast? with
  | some n => n
  | none => String.intercalate "/" root

/-- Models `build_tree` (src/main.rs lines 387-422). -/
def build_tree (paths : List (List String)) (root : List String)
    (md : Option Nat) : TreeNode :=
  paths.foldl
    (fun t p =>
      let rel := stripRoot root p
      insertGo md rel.length 0 rel t)
    (TreeNode.new (rootName root))

/-- Descend from `t` along directory components `ds`. -/
def nodeAt : List String → TreeNode → Option TreeNode
  | [], t => some t
  | d :: rest, .node _ ds _ =>
    match dirFind d ds with
    | some c => nodeAt rest c
    | none => none

/-- Number of occurrences of file name `f` in the files list of the node
addressed by directory components `ds` (0 when the node is absent): how
many times the relative path `ds ++ [f]` is present in the tree. -/
def occsAt (ds : List String) (f : String) (t : TreeNode) : Nat :=
  match nodeAt ds t with
  | some t' => t'.files.count f
  | none => 0

/-! ## Rendering -/

/-- Case-insensitive comparison used on file names by
`render_tree_text`: `a.to_lowercase().cmp(&b.to_lowercase())`. -/
def ciLe (a b : String) : Prop := strLower a ≤ strLower b

instance : DecidableRel ciLe := fun a b => by
  unfold ciLe; infer_instance

/-- The in-place `sort_unstable_by` of each node's file list, modelled as
a sort by the case-insensitive order. -/
def sortFilesCI (fs : List String) : List String := fs.insertionSort ciLe

/-- `" ".repeat(indent * (level + 1))`. -/
def indentStr (indent level : Nat) : String :=
  ⟨List.replicate (indent * (level + 1)) ' '⟩

/-- `max_depth.map(|m| level + 1 < m).unwrap_or(true)`: may `rec` descend
into a child listed at `level + 1`? -/
def mdRecurse (md : Option Nat) (level : Nat) : Bool :=
  match md with
  | some m => decide (level + 1 < m)
  | none => true

mutual
/-- The recursive `rec` of `render_tree_text` (src/main.rs lines
426-449), producing the output lines: root line at level 0, then each
directory child (with trailing `/`), recursing when allowed, then the
node's files sorted case-insensitively. -/
def renderNode (md : Option Nat) (indent level : Nat) : TreeNode → List String
  | .node n ds fs =>
    (if level == 0 then [n ++ "/"] else []) ++
      renderDirs md indent level ds ++
      (sortFilesCI fs).map (fun f => indentStr indent level ++ f)

/-- The directory loop of `rec`: one line per child (printed from the
child's `name` field), followed by the child's own lines when the depth
limit allows. -/
def renderDirs (md : Option Nat) (indent level : Nat) : DirMap → List String
  | .nil => []
  | .cons _ v rest =>
    (indentStr indent level ++ v.name ++ "/") ::
      ((if mdRecurse md level then renderNode md indent (level + 1) v else []) ++
        renderDirs md indent level rest)
end

/-- Models `render_tree_text`'s return value `lines.join("\n")`. -/
def render_tree_text (t : TreeNode) (indent : Nat) (md : Option Nat) : String :=
  String.intercalate "\n" (renderNode md indent 0 t)

mutual
/-- The state effect of `render_tree_text` on the tree it is handed by
`&mut`: each visited node's file list is sorted in place; children are
visited only when the depth limit lets `rec` descend. -/
def renderSortT (md : Option Nat) (level : Nat) : TreeNode → TreeNode
  | .node n ds fs => .node n (renderSortD md level ds) (sortFilesCI fs)

/-- Directory part of `renderSortT`. -/
def renderSortD (md : Option Nat) (level : Nat) : DirMap → DirMap
  | .nil => .nil
  | .cons k v rest =>
    .cons k (if mdRecurse md level then renderSortT md (level + 1) v else v)
      (renderSortD md level rest)
end

/-! ## Observational predicates on trees -/

mutual
/-- All of a node's files lie within depth `m`, the node sitting at level
`lvl` (its files have path depth `lvl + 1`), recursively. -/
def depthOkT (m lvl : Nat) : TreeNode → Bool
  | .node _ ds fs => (fs.isEmpty || decide (lvl + 1 ≤ m)) && depthOkD m (lvl + 1) ds

/-- Forest form of `depthOkT`; `lvl` is the level of the child nodes. -/
def depthOkD (m lvl : Nat) : DirMap → Bool
  | .nil => true
  | .cons _ t rest => depthOkT m lvl t && depthOkD m lvl rest
end

/-- `depthOkT` lifted over an optional depth limit. -/
def depthOkO (md : Option Nat) (lvl : Nat) (t : TreeNode) : Bool :=
  match md with
  | none => true
  | some m => depthOkT m lvl t

mutual
/-- Every `dirs` entry's key equals the child node's `name`, recursively
(the C10 invariant). -/
def keysMatch : TreeNode → Bool
  | .node _ ds _ => keysMatchD ds

/-- Forest form of `keysMatch`. -/
def keysMatchD : DirMap → Bool
  | .nil => true
  | .cons k t rest => (k == t.name) && keysMatch t && keysMatchD rest
end

/-- Is `k` below the first key of the map (vacuously for `nil`)? -/
def ltHead (k : String) : DirMap → Bool
  | .nil => true
  | .cons a _ _ => decide (k < a)

mutual
/-- Keys strictly ascend in every `dirs` map of the tree. -/
def dirsSortedT : TreeNode → Bool
  | .node _ ds _ => dirsSortedD ds

/-- Forest form of `dirsSortedT`. -/
def dirsSortedD : DirMap → Bool
  | .nil => true
  | .cons k t rest => dirsSortedT t && ltHead k rest && dirsSortedD rest
end

/-- The keys of a map, in stored (ascending) order. -/
def dirKeys : DirMap → List String
  | .nil => []
  | .cons k _ rest => k :: dirKeys rest

/-- The child node names of a map, in stored order — the raw names the
renderer prints. -/
def childNames : DirMap → List String
  | .nil => []
  | .cons _ t rest => t.name :: childNames rest

/-- Raw (byte/codepoint) order on strings. -/
def rawLe (a b : String) : Prop := a ≤ b

instance : DecidableRel rawLe := fun a b => by
  unfold rawLe; infer_instance

/-- Canonical multiset representative of a file list: sorted by the raw
order (antisymmetric, so permutations get equal representatives). -/
def sortFilesRaw (fs : List String) : List String := fs.insertionSort rawLe

mutual
/-- Canonical form of a tree: every file list replaced by its sorted
representative.  Two trees have equal canonical forms exactly when they
agree on names and directory structure and their file lists agree as
multisets — the comparison C8 speaks about. -/
def canonT : TreeNode → TreeNode
  | .node n ds fs => .node n (canonD ds) (sortFilesRaw fs)

/-- Forest form of `canonT`. -/
def canonD : DirMap → DirMap
  | .nil => .nil
  | .cons k t rest => .cons k (canonT t) (canonD rest)
end

/-! ## The filesystem walk (list_files_fs) -/

/-- The `deny_dirs` array of `fs_dir_allow` (src/main.rs lines 246-277). -/
def deny_dirs : List String :=
  [".git", ".hg", ".svn", "__pycache__", ".cache", ".mypy_cache",
   ".pytest_cache", ".ruff_cache", ".tox", ".venv", "venv", "env",
   "node_modules", ".pnpm-store", "dist", "build", "out", ".next",
   ".nuxt", ".angular", ".parcel-cache", "target", "bin", "obj",
   ".gradle", ".idea", ".vscode", ".terraform", ".serverless",
   ".docusaurus"]

/-- Models `fs_dir_allow` (src/main.rs lines 241-279): depth 0 is always
allowed, otherwise the lowercased entry name must avoid the deny list.
Note the source never inspects the entry's file type. -/
def fs_dir_allow (depth : Nat) (name : String) : Bool :=
  if depth == 0 then true
  else !(deny_dirs.contains (strLower name))

mutual
/-- A directory entry of the walked filesystem: a regular file or a
subdirectory with its entries. -/
inductive FsTree where
  | file (name : String)
  | dir (name : String) (entries : FsForest)

/-- A list of directory entries. -/
inductive FsForest where
  | nil
  | cons (t : FsTree) (rest : FsForest)
end

mutual
/-- One entry of the `WalkDir` traversal with
`filter_entry(|e| fs_dir_allow(e))` and the `is_file` filter: a rejected
entry is skipped (and, for a directory, not descended into); an accepted
file contributes its path; an accepted directory contributes its
entries' paths at depth + 1. -/
def walkTree (pfx : List String) (depth : Nat) : FsTree → List (List String)
  | .file name => if fs_dir_allow depth name then [pfx ++ [name]] else []
  | .dir name es =>
    if fs_dir_allow depth name then walkForest (pfx ++ [name]) (depth + 1) es
    else []

/-- Walk of a list of sibling entries. -/
def walkForest (pfx : List String) (depth : Nat) : FsForest → List (List String)
  | .nil => []
  | .cons t rest => walkTree pfx depth t ++ walkForest pfx depth rest
end

/-- Models `list_files_fs` (src/main.rs lines 229-238) walking a root
directory whose entries are `entries`; the root itself is the depth-0
entry (always allowed, not a file), its children have depth 1. -/
def list_files_fs (root : List String) (entries : FsForest) : List (List String) :=
  walkForest root 1 entries

/-! ## The git listing (list_files_git) and discovery mode -/

/-- Models `str::trim` (used only through emptiness of the result). -/
def strTrim (s : String) : String :=
  ⟨((s.data.dropWhile Char.isWhitespace).reverse.dropWhile
      Char.isWhitespace).reverse⟩

/-- Outcome of a `Command::output()` that did launch: exit-status success
flag and stdout lines. -/
structure CmdResult where
  success : Bool
  stdout : List String

/-- Environment for the two `git ls-files` invocations of
`list_files_git`; `.error` models an `io::Error` from spawning. -/
structure GitEnv where
  lsRes : Except Unit CmdResult
  lsIgnRes : Except Unit CmdResult

/-- `s.lines().filter(|l| !l.trim().is_empty())` followed by
`root.join(line)`, with a relative line split into components. -/
def gitLines (out : CmdResult) (root : List String) : List (List String) :=
  (out.stdout.filter (fun l => !(strTrim l).isEmpty)).map
    (fun l => root ++ l.splitOn "/")

/-- Component-wise lexicographic order on paths, models the `Ord` used by
`paths.sort()`. -/
def pathLeB : List String → List String → Bool
  | [], _ => true
  | _ :: _, [] => false
  | a :: as, b :: bs => if a = b then pathLeB as bs else decide (a < b)

def pathLe (a b : List String) : Prop := pathLeB a b = true

instance : DecidableRel pathLe := fun a b => by
  unfold pathLe; infer_instance

/-- `paths.sort(); paths.dedup();` — sort, then drop consecutive
duplicates. -/
def sortDedup (l : List (List String)) : List (List String) :=
  (l.insertionSort pathLe).destutter (· ≠ ·)

/-- Models `list_files_git` (src/main.rs lines 186-226).  The first query
feeds `paths` only when its status is success; the second query runs only
when `include_ignored || include_secret_names`, and its lines are kept
when ignored files are wanted or the name is secret-like.  An `?`-style
IO error from either launched command aborts with `Err`. -/
def list_files_git (env : GitEnv) (root : List String)
    (include_ignored include_secret_names : Bool) :
    Except Unit (List (List String)) := do
  let out ← env.lsRes
  let base := if out.success then gitLines out root else []
  let extra ←
    (if include_ignored || include_secret_names then do
      let outIgn ← env.lsIgnRes
      pure
        (if outIgn.success then
          (gitLines outIgn root).filter
            (fun p => include_ignored ||
              (include_secret_names && is_secret_path p))
        else [])
    else pure [])
  pure (sortDedup (base ++ extra))

/-- Models the discovery step of `main` (src/main.rs lines 98-132): when
a git root was detected and git is not disabled, take the git listing and
fall back to the filesystem walk only when it returns `Err`; the reported
mode depends only on `git_root.is_some() && !no_git`. -/
def discoverFiles (noGit gitRootFound : Bool) (env : GitEnv)
    (root : List String) (entries : FsForest)
    (include_ignored hide_secrets : Bool) : List (List String) × String :=
  let useGit := gitRootFound && !noGit
  let files :=
    if useGit then
      match list_files_git env root include_ignored (!hide_secrets) with
      | .ok fs => fs
      | .error _ => list_files_fs root entries
    else list_files_fs root entries
  (files, if useGit then "git-aware" else "fs-heuristic")

instance : IsTotal String ciLe :=
  ⟨fun a b => le_total (strLower a) (strLower b)⟩

instance : IsTrans String ciLe :=
  ⟨fun _ _ _ h1 h2 => le_trans h1 h2⟩

instance : IsTotal String rawLe :=
  ⟨fun a b => le_total a b⟩

instance : IsTrans String rawLe :=
  ⟨fun _ _ _ h1 h2 => le_trans h1 h2⟩

instance : IsAntisymm String rawLe :=
  ⟨fun _ _ h1 h2 => le_antisymm h1 h2⟩

/-- A small concrete tree used to instantiate universally quantified
claims. -/
def egTree : TreeNode :=
  build_tree
    [["r", "b.txt"], ["r", "A.txt"], ["r", "z", "c.md"], ["r", "a", "d.md"]]
    ["r"] none

/-! ## Spec-side formulations for the secret detector (C6) -/

/-- Boundary class in the words of the spec: start/end of string or a
non-letter character (letter meaning an ASCII letter of either case). -/
def spBnd : Option Char → Bool
  | none => true
  | some c => !(isUpperAlpha c || isLowerAlpha c)

/-- The claim's characterization of `isSecretPath`, read literally: the
base name (raw) is `.env` or starts with `.env.`, or the lowercased base
name contains `secret`/`secrets` as a token bounded by string edges or
non-letter characters. -/
def claimSecretName (name : String) : Bool :=
  name == ".env" || strLeads name ".env." ||
    tokenHit spBnd (strLower name).data ("secret").data ||
    tokenHit spBnd (strLower name).data ("secrets").data

/-- The amended characterization: as `claimSecretName` but with the
dotenv branch applied to the lowercased base name, matching the code's
lowercase-first order. -/
def amendedSecretName (name : String) : Bool :=
  strLower name == ".env" || strLeads (strLower name) ".env." ||
    tokenHit spBnd (strLower name).data ("secret").data ||
    tokenHit spBnd (strLower name).data ("secrets").data

theorem toNat_ofNat_valid (n : Nat) (h : n.isValidChar) :
    (Char.ofNat n).toNat = n := by
  simp only [Char.ofNat, dif_pos h, Char.ofNatAux, Char.toNat, UInt32.toNat]
  simp [BitVec.toNat_ofNatLt]

theorem isUpperAlpha_lowerChar (c : Char) :
    isUpperAlpha (lowerChar c) = false := by
  unfold lowerChar
  by_cases h : isUpperAlpha c = true
  · simp only [h, if_pos]
    have hv : (c.toNat + 32).isValidChar := by
      unfold isUpperAlpha at h
      simp only [Bool.and_eq_true, decide_eq_true_eq] at h
      exact Or.inl (by omega)
    unfold isUpperAlpha at h ⊢
    simp only [Bool.and_eq_true, decide_eq_true_eq] at h
    rw [toNat_ofNat_valid _ hv]
    simp only [Bool.and_eq_false_iff]
    right; simp; omega
  · simp only [Bool.not_eq_true] at h
    simp [h]

theorem noUpper_strLower (s : String) :
    ∀ c ∈ (strLower s).data, isUpperAlpha c = false := by
  intro c hc
  simp only [strLower, List.mem_map] at hc
  obtain ⟨c₀, _, rfl⟩ := hc
  exact isUpperAlpha_lowerChar c₀

theorem spBnd_eq_reBnd (oc : Option Char)
    (h : ∀ c, oc = some c → isUpperAlpha c = false) :
    spBnd oc = reBnd oc := by
  cases oc with
  | none => rfl
  | some c => simp [spBnd, reBnd, h c rfl]

theorem occAt_spBnd_eq (s w : List Char)
    (hs : ∀ c ∈ s, isUpperAlpha c = false) (i : Nat) :
    occAt spBnd s w i = occAt reBnd s w i := by
  unfold occAt
  have h₁ : spBnd (if i == 0 then none else s.get? (i - 1)) =
      reBnd (if i == 0 then none else s.get? (i - 1)) := by
    apply spBnd_eq_reBnd
    intro c hc
    split at hc
    · exact absurd hc (by simp)
    · exact hs c (List.get?_mem hc)
  have h₂ : spBnd (s.get? (i + w.length)) = reBnd (s.get? (i + w.length)) := by
    apply spBnd_eq_reBnd
    intro c hc
    exact hs c (List.get?_mem hc)
  rw [h₁, h₂]

theorem tokenHit_spBnd_eq (s w : List Char)
    (hs : ∀ c ∈ s, isUpperAlpha c = false) :
    tokenHit spBnd s w = tokenHit reBnd s w := by
  unfold tokenHit
  have h : occAt spBnd s w = occAt reBnd s w :=
    funext (occAt_spBnd_eq s w hs)
  rw [h]

/-- C6: the claim's literal characterization of `isSecretPath` fails on
the base name `.ENV`: the code lowercases first and treats it as
secret-like, while the claim's dotenv branch inspects the raw name. -/
theorem claim_c6_cex :
    is_secret_path [".ENV"] = true ∧ claimSecretName ".ENV" = false := by
  decide

/-- C6 (amended): `isSecretPath` on a base name holds exactly when the
lowercased base name is `.env`, starts with `.env.`, or contains the
token `secret`/`secrets` bounded by string edges or non-letter
characters; in particular it matches `.env`, `.env.local`,
`config.secrets.yaml`, `secret.txt`, `my-secret.txt`, `secrets.json`,
and rejects `secretary.txt` and `presecret.md`. -/
theorem claim_c6 :
    (∀ name : String, is_secret_path [name] = amendedSecretName name) ∧
    is_secret_path [".env"] = true ∧
    is_secret_path [".env.local"] = true ∧
    is_secret_path ["config.secrets.yaml"] = true ∧
    is_secret_path ["secret.txt"] = true ∧
    is_secret_path ["my-secret.txt"] = true ∧
    is_secret_path ["secrets.json"] = true ∧
    is_secret_path ["secretary.txt"] = false ∧
    is_secret_path ["presecret.md"] = false := by
  refine ⟨fun name => ?_, by decide, by decide, by decide, by decide,
    by decide, by decide, by decide, by decide⟩
  show is_secret_path [name] = amendedSecretName name
  unfold is_secret_path amendedSecretName secretRegexMatch
  have hlast : fileNameOf [name] = some name := rfl
  rw [hlast]
  have hs := noUpper_strLower name
  rw [tokenHit_spBnd_eq _ _ hs, tokenHit_spBnd_eq _ _ hs]
  simp [Bool.or_assoc]

/-! ## Claims C1 and C3: the relevance filter and secrets -/

/-- C1's counterexample: with `hideSecrets` set, the secret-like file
`secrets.yaml` is still relevant (its extension is in the relevant set),
so secret-like names are not suppressed entirely. -/
theorem claim_c1_cex :
    is_secret_path ["secrets.yaml"] = true ∧
    is_relevant_path ["secrets.yaml"] ⟨false, false, true⟩ = true := by
  decide

/-- C1 (amended): with `hideSecrets` set the secret rule is merely
disabled — relevance coincides with the chain that has no secret rule at
all, so a secret-like name appears exactly when the ordinary rules accept
it; `.env` in particular (no recognized extension) is suppressed under
the default flags. -/
theorem claim_c1 (p : List String) (opts : FilterOptions)
    (h : opts.hide_secrets = true) :
    is_relevant_path p opts = is_relevant_plain p opts ∧
    is_relevant_path [".env"] ⟨false, false, true⟩ = false := by
  refine ⟨?_, by decide⟩
  unfold is_relevant_path is_relevant_plain
  rw [h]
  simp

theorem claim_c1_witness :
    (⟨false, false, true⟩ : FilterOptions).hide_secrets = true ∧
    (is_relevant_path ["secrets.yaml"] ⟨false, false, true⟩ =
        is_relevant_plain ["secrets.yaml"] ⟨false, false, true⟩ ∧
      is_relevant_path [".env"] ⟨false, false, true⟩ = false) :=
  ⟨rfl, claim_c1 ["secrets.yaml"] ⟨false, false, true⟩ rfl⟩

/-- C3's counterexample: `secrets.lock` is secret-like, yet with
`hideSecrets = false` it is rejected, because the lock-suffix rejection
runs before the secret force-include. -/
theorem claim_c3_cex :
    is_secret_path ["secrets.lock"] = true ∧
    is_relevant_path ["secrets.lock"] ⟨false, false, false⟩ = false := by
  decide

/-- C3 (amended): with `hideSecrets = false`, a secret-like path is
accepted regardless of its extension provided the junk-file/lockfile
rejection (steps 1-2 of the chain) does not fire first. -/
theorem claim_c3 (p : List String) (opts : FilterOptions)
    (h1 : opts.hide_secrets = false) (h2 : is_secret_path p = true)
    (h3 : nameRejected p = false) :
    is_relevant_path p opts = true := by
  unfold is_relevant_path
  rw [h1, h2, h3]
  simp

theorem claim_c3_witness :
    (⟨false, false, false⟩ : FilterOptions).hide_secrets = false ∧
    is_secret_path [".env"] = true ∧
    nameRejected [".env"] = false ∧
    is_relevant_path [".env"] ⟨false, false, false⟩ = true :=
  ⟨rfl, by decide, by decide,
    claim_c3 [".env"] ⟨false, false, false⟩ rfl (by decide) (by decide)⟩

/-! ## Map laws and insertion lemmas -/

theorem mdAllows_eq_not_mdGt (md : Option Nat) (d : Nat) :
    mdAllows md d = !mdGt md d := by
  cases md with
  | none => rfl
  | some m => simp only [mdAllows, mdGt, ← decide_not, Nat.not_lt]

theorem mdGt_false_of_le (md : Option Nat) (a b : Nat) (hab : b ≤ a)
    (h : mdGt md a = false) : mdGt md b = false := by
  cases md with
  | none => rfl
  | some m =>
    simp only [mdGt, decide_eq_false_iff_not, Nat.not_lt] at h ⊢
    omega

theorem dirFind_upsert_self : ∀ (dm : DirMap) (k : String) (v : TreeNode),
    dirFind k (dirUpsert k v dm) = some v
  | .nil, k, v => by simp [dirUpsert, dirFind]
  | .cons a t rest, k, v => by
    unfold dirUpsert
    by_cases h1 : k < a
    · simp [h1, dirFind]
    · by_cases h2 : k = a
      · simp [h1, h2, dirFind]
      · simp [h1, h2, dirFind, dirFind_upsert_self rest k v]

theorem dirFind_upsert_ne : ∀ (dm : DirMap) (k j : String) (v : TreeNode),
    k ≠ j → dirFind k (dirUpsert j v dm) = dirFind k dm
  | .nil, k, j, v, h => by simp [dirUpsert, dirFind, h]
  | .cons a t rest, k, j, v, h => by
    unfold dirUpsert
    by_cases h1 : j < a
    · simp [h1, dirFind, h]
    · by_cases h2 : j = a
      · subst h2; simp [h1, dirFind, h]
      · simp [h1, h2, dirFind, dirFind_upsert_ne rest k j v h]

theorem insS_nil (md : Option Nat) (i : Nat) (t : TreeNode) :
    insS md i [] t = t := by
  simp [insS]

theorem insS_single (md : Option Nat) (i : Nat) (name : String)
    (n : String) (dm : DirMap) (fs : List String) :
    insS md i [name] (.node n dm fs) =
      if mdGt md (i + 1) then TreeNode.node n dm fs
      else .node n dm (fs ++ [name]) := by
  simp [insS]

theorem insS_cons (md : Option Nat) (i : Nat) (name : String)
    (rest : List String) (hne : rest ≠ []) (n : String) (dm : DirMap)
    (fs : List String) :
    insS md i (name :: rest) (.node n dm fs) =
      if mdGt md (i + 1) then TreeNode.node n dm fs
      else
        .node n
          (dirUpsert name
            (insS md (i + 1) rest
              ((dirFind name dm).getD (TreeNode.new name))) dm) fs := by
  cases rest with
  | nil => exact absurd rfl hne
  | cons a b => simp [insS]

theorem insertGo_eq_insS (md : Option Nat) :
    ∀ (parts : List String) (i : Nat) (t : TreeNode),
      insertGo md (i + parts.length) i parts t = insS md i parts t
  | [], _, _ => rfl
  | [name], i, .node n dm fs => by
    simp only [List.length_singleton, insertGo, insS, mdAllows_eq_not_mdGt]
    cases mdGt md (i + 1) <;> simp
  | name :: next :: rest, i, .node n dm fs => by
    have hlen : i + (name :: next :: rest).length =
        (i + 1) + (next :: rest).length := by
      simp only [List.length_cons]; omega
    simp only [insertGo, insS]
    rw [hlen, insertGo_eq_insS md (next :: rest) (i + 1) _]

theorem occsAt_nil (f n : String) (dm : DirMap) (fs : List String) :
    occsAt [] f (.node n dm fs) = fs.count f := rfl

theorem occsAt_cons_found (d : String) (rest : List String) (f : String)
    (n : String) (dm : DirMap) (fs : List String) (c : TreeNode)
    (h : dirFind d dm = some c) :
    occsAt (d :: rest) f (.node n dm fs) = occsAt rest f c := by
  have hn : nodeAt (d :: rest) (TreeNode.node n dm fs) = nodeAt rest c := by
    simp only [nodeAt, h]
  unfold occsAt
  rw [hn]


theorem occsAt_cons_notfound (d : String) (rest : List String) (f : String)
    (n : String) (dm : DirMap) (fs : List String)
    (h : dirFind d dm = none) :
    occsAt (d :: rest) f (.node n dm fs) = 0 := by
  have hn : nodeAt (d :: rest) (TreeNode.node n dm fs) = none := by
    simp only [nodeAt, h]
  unfold occsAt
  rw [hn]


theorem occsAt_new (ds : List String) (f n : String) :
    occsAt ds f (TreeNode.new n) = 0 := by
  cases ds with
  | nil => simp [occsAt, nodeAt, TreeNode.new, TreeNode.files]
  | cons d rest => simp [occsAt, nodeAt, TreeNode.new, dirFind]

theorem occs_insS_hit (md : Option Nat) :
    ∀ (ds : List String) (f : String) (i : Nat) (t : TreeNode),
      mdGt md (i + ds.length + 1) = false →
      occsAt ds f (insS md i (ds ++ [f]) t) = occsAt ds f t + 1
  | [], f, i, .node n dm fs, h => by
    have h' : mdGt md (i + 1) = false := by simpa using h
    rw [List.nil_append, insS_single, if_neg (by simp [h'])]
    rw [occsAt_nil, occsAt_nil, List.count_append]
    simp
  | d :: ds', f, i, .node n dm fs, h => by
    have h1 : mdGt md (i + 1) = false :=
      mdGt_false_of_le md _ _ (by simp only [List.length_cons]; omega) h
    have h2 : mdGt md ((i + 1) + ds'.length + 1) = false := by
      have he : (i + 1) + ds'.length + 1 = i + (d :: ds').length + 1 := by
        simp only [List.length_cons]; omega
      rwa [he]
    rw [List.cons_append, insS_cons md i d (ds' ++ [f]) (by simp) n dm fs,
      if_neg (by simp [h1])]
    rw [occsAt_cons_found d ds' f n _ fs _ (dirFind_upsert_self dm d _)]
    rw [occs_insS_hit md ds' f (i + 1) _ h2]
    cases hc : dirFind d dm with
    | some c =>
      rw [occsAt_cons_found d ds' f n dm fs c hc]
      simp [hc]
    | none =>
      rw [occsAt_cons_notfound d ds' f n dm fs hc]
      simp [hc, occsAt_new]

theorem occs_insS_blocked (md : Option Nat) :
    ∀ (ds : List String) (f : String) (i : Nat) (t : TreeNode),
      mdGt md (i + ds.length + 1) = true →
      occsAt ds f (insS md i (ds ++ [f]) t) = occsAt ds f t
  | [], f, i, .node n dm fs, h => by
    have h' : mdGt md (i + 1) = true := by simpa using h
    rw [List.nil_append, insS_single, if_pos (by simp [h'])]
  | d :: ds', f, i, .node n dm fs, h => by
    rw [List.cons_append, insS_cons md i d (ds' ++ [f]) (by simp) n dm fs]
    by_cases h1 : mdGt md (i + 1) = true
    · rw [if_pos (by simp [h1])]
    · rw [if_neg (by simp [h1])]
      have h2 : mdGt md ((i + 1) + ds'.length + 1) = true := by
        have he : (i + 1) + ds'.length + 1 = i + (d :: ds').length + 1 := by
          simp only [List.length_cons]; omega
        rwa [he]
      rw [occsAt_cons_found d ds' f n _ fs _ (dirFind_upsert_self dm d _)]
      rw [occs_insS_blocked md ds' f (i + 1) _ h2]
      cases hc : dirFind d dm with
      | some c =>
        rw [occsAt_cons_found d ds' f n dm fs c hc]
        simp [hc]
      | none =>
        rw [occsAt_cons_notfound d ds' f n dm fs hc]
        simp [hc, occsAt_new]

theorem occs_insS_miss (md : Option Nat) :
    ∀ (rel ds : List String) (f : String) (i : Nat) (t : TreeNode),
      rel ≠ ds ++ [f] →
      occsAt ds f (insS md i rel t) = occsAt ds f t
  | [], _, _, _, _, _ => by rw [insS_nil]
  | [x], ds, f, i, .node n dm fs, h => by
    rw [insS_single]
    by_cases hb : mdGt md (i + 1) = true
    · rw [if_pos (by simp [hb])]
    · rw [if_neg (by simp at hb; simp [hb])]
      cases ds with
      | nil =>
        have hxf : (x == f) = false := by
          have : x ≠ f := fun e => h (by simp [e])
          simp [this]
        rw [occsAt_nil, occsAt_nil, List.count_append]
        simp [List.count_cons, hxf]
      | cons d ds' =>
        cases hc : dirFind d dm with
        | some c =>
          rw [occsAt_cons_found d ds' f n dm (fs ++ [x]) c hc,
            occsAt_cons_found d ds' f n dm fs c hc]
        | none =>
          rw [occsAt_cons_notfound d ds' f n dm (fs ++ [x]) hc,
            occsAt_cons_notfound d ds' f n dm fs hc]
  | x :: y :: r, ds, f, i, .node n dm fs, h => by
    rw [insS_cons md i x (y :: r) (by simp) n dm fs]
    by_cases hb : mdGt md (i + 1) = true
    · rw [if_pos (by simp [hb])]
    · rw [if_neg (by simp at hb; simp [hb])]
      cases ds with
      | nil => rw [occsAt_nil, occsAt_nil]
      | cons d ds' =>
        by_cases hdx : d = x
        · subst hdx
          rw [occsAt_cons_found d ds' f n _ fs _ (dirFind_upsert_self dm d _)]
          have hrest : y :: r ≠ ds' ++ [f] := by
            intro e
            exact h (by rw [List.cons_append, ← e])
          rw [occs_insS_miss md (y :: r) ds' f (i + 1) _ hrest]
          cases hc : dirFind d dm with
          | some c =>
            rw [occsAt_cons_found d ds' f n dm fs c hc]
            simp [hc]
          | none =>
            rw [occsAt_cons_notfound d ds' f n dm fs hc]
            simp [hc, occsAt_new]
        · cases hc : dirFind d dm with
          | some c =>
            rw [occsAt_cons_found d ds' f n _ fs c
              (by rw [dirFind_upsert_ne dm d x _ hdx]; exact hc)]
            rw [occsAt_cons_found d ds' f n dm fs c hc]
          | none =>
            rw [occsAt_cons_notfound d ds' f n _ fs
              (by rw [dirFind_upsert_ne dm d x _ hdx]; exact hc)]
            rw [occsAt_cons_notfound d ds' f n dm fs hc]

theorem occs_foldl (md : Option Nat) (ds : List String) (f : String) :
    ∀ (l : List (List String)) (t : TreeNode),
      occsAt ds f (l.foldl (fun acc rel => insS md 0 rel acc) t) =
        occsAt ds f t +
          (if mdGt md (ds.length + 1) = true then 0
           else l.count (ds ++ [f]))
  | [], t => by simp
  | rel :: l, t => by
    rw [List.foldl_cons, occs_foldl md ds f l _]
    by_cases he : rel = ds ++ [f]
    · subst he
      by_cases hb : mdGt md (ds.length + 1) = true
      · have hb0 : mdGt md (0 + ds.length + 1) = true := by
          rwa [Nat.zero_add]
        rw [occs_insS_blocked md ds f 0 t hb0, hb]
        simp
      · have hbf : mdGt md (ds.length + 1) = false := by simpa using hb
        have hb0 : mdGt md (0 + ds.length + 1) = false := by
          rwa [Nat.zero_add]
        rw [occs_insS_hit md ds f 0 t hb0, hbf]
        simp only [List.count_cons_self, if_false, Bool.false_eq_true]
        omega
    · rw [occs_insS_miss md rel ds f 0 t he]
      have hne : (rel == (ds ++ [f] : List String)) = false := by
        simp only [beq_eq_false_iff_ne, ne_eq]
        exact he
      rw [List.count_cons, hne]
      simp

/-! ## Depth-bound invariant lemmas -/

theorem depthOkT_new (m lvl : Nat) (s : String) :
    depthOkT m lvl (TreeNode.new s) = true := by
  simp [TreeNode.new, depthOkT, depthOkD]

theorem depthOkD_find (m lvl : Nat) :
    ∀ (dm : DirMap) (k : String) (c : TreeNode),
      depthOkD m lvl dm = true → dirFind k dm = some c →
      depthOkT m lvl c = true
  | .nil, k, c, _, hf => by simp [dirFind] at hf
  | .cons a t rest, k, c, hd, hf => by
    simp only [depthOkD, Bool.and_eq_true] at hd
    unfold dirFind at hf
    by_cases hk : k = a
    · subst hk
      rw [if_pos rfl] at hf
      rw [← Option.some.inj hf]
      exact hd.1
    · rw [if_neg hk] at hf
      exact depthOkD_find m lvl rest k c hd.2 hf

theorem depthOkD_upsert (m lvl : Nat) :
    ∀ (dm : DirMap) (k : String) (v : TreeNode),
      depthOkD m lvl dm = true → depthOkT m lvl v = true →
      depthOkD m lvl (dirUpsert k v dm) = true
  | .nil, k, v, _, hv => by simp [dirUpsert, depthOkD, hv]
  | .cons a t rest, k, v, hd, hv => by
    simp only [depthOkD, Bool.and_eq_true] at hd
    unfold dirUpsert
    by_cases h1 : k < a
    · simp [h1, depthOkD, hv, hd.1, hd.2]
    · by_cases h2 : k = a
      · simp [h1, h2, depthOkD, hv, hd.2]
      · simp [h1, h2, depthOkD, hd.1,
          depthOkD_upsert m lvl rest k v hd.2 hv]

theorem depthOk_insS (m : Nat) :
    ∀ (rel : List String) (i : Nat) (t : TreeNode),
      depthOkT m i t = true →
      depthOkT m i (insS (some m) i rel t) = true
  | [], _, t, h => by rwa [insS_nil]
  | [x], i, .node n dm fs, h => by
    rw [insS_single]
    by_cases hb : mdGt (some m) (i + 1) = true
    · rw [if_pos (by simp [hb])]; exact h
    · rw [if_neg (by simp at hb; simp [hb])]
      simp only [depthOkT, Bool.and_eq_true] at h ⊢
      refine ⟨?_, h.2⟩
      have hle : i + 1 ≤ m := by
        simp only [mdGt, decide_eq_true_eq, Nat.not_lt] at hb
        omega
      simp [hle]
  | x :: y :: r, i, .node n dm fs, h => by
    rw [insS_cons (some m) i x (y :: r) (by simp) n dm fs]
    by_cases hb : mdGt (some m) (i + 1) = true
    · rw [if_pos (by simp [hb])]; exact h
    · rw [if_neg (by simp at hb; simp [hb])]
      simp only [depthOkT, Bool.and_eq_true] at h ⊢
      refine ⟨h.1, ?_⟩
      apply depthOkD_upsert m (i + 1) dm x _ h.2
      apply depthOk_insS m (y :: r) (i + 1)
      cases hc : dirFind x dm with
      | some c =>
        simp only [hc, Option.getD_some]
        exact depthOkD_find m (i + 1) dm x c h.2 hc
      | none =>
        simp only [hc, Option.getD_none]
        exact depthOkT_new m (i + 1) x

theorem depthOk_foldl (m : Nat) :
    ∀ (l : List (List String)) (t : TreeNode),
      depthOkT m 0 t = true →
      depthOkT m 0
        (l.foldl (fun acc rel => insS (some m) 0 rel acc) t) = true
  | [], _, h => h
  | rel :: l, t, h => by
    rw [List.foldl_cons]
    exact depthOk_foldl m l _ (depthOk_insS m rel 0 t h)

/-! ## build_tree as a fold of insertions -/

theorem count_one_of_nodup : ∀ (l : List (List String)) (a : List String),
    l.Nodup → a ∈ l → l.count a = 1
  | [], a, _, hm => by simp at hm
  | b :: l, a, hnd, hm => by
    rw [List.count_cons]
    rcases List.mem_cons.mp hm with rfl | hm'
    · have hb : a ∉ l := (List.nodup_cons.mp hnd).1
      rw [List.count_eq_zero_of_not_mem hb]
      simp
    · have hne : a ≠ b := by
        rintro rfl
        exact (List.nodup_cons.mp hnd).1 hm'
      rw [count_one_of_nodup l a (List.nodup_cons.mp hnd).2 hm']
      have hba : (b == a) = false := by
        simp only [beq_eq_false_iff_ne, ne_eq]
        exact fun e => hne (Eq.symm e)
      rw [hba]
      simp

theorem build_tree_as_fold (paths : List (List String))
    (root : List String) (md : Option Nat) :
    build_tree paths root md =
      (paths.map (stripRoot root)).foldl (fun t rel => insS md 0 rel t)
        (TreeNode.new (rootName root)) := by
  unfold build_tree
  rw [List.foldl_map]
  congr 1
  funext t p
  have h := insertGo_eq_insS md (stripRoot root p) 0 t
  rwa [Nat.zero_add] at h

theorem leadsWith_recover : ∀ (root p : List String),
    leadsWith root p = true → root ++ p.drop root.length = p
  | [], p, _ => by simp
  | a :: as, [], h => by simp [leadsWith] at h
  | a :: as, b :: bs, h => by
    simp only [leadsWith, Bool.and_eq_true, beq_iff_eq] at h
    simp only [List.length_cons, List.drop_succ_cons, List.cons_append]
    rw [h.1, leadsWith_recover as bs h.2]

theorem stripRoot_of_leads (root p : List String)
    (h : leadsWith root p = true) :
    stripRoot root p = p.drop root.length := by
  unfold stripRoot
  rw [h]
  simp

theorem stripRoot_of_not (root p : List String)
    (h : leadsWith root p = false) : stripRoot root p = p := by
  unfold stripRoot
  rw [h]
  simp

/-! ## Claims C2 and C9 -/

/-- C2: in the tree built from a deduplicated list of discovered paths
(each strictly below the root), each input path's relative form
`ds ++ [f]` occurs exactly once — file `f` sits exactly once in the node
addressed by its directory components `ds`, i.e. at depth
`ds.length + 1`, the path's component count — whenever that depth is
within the optional limit; when the depth exceeds the limit the path
occurs nowhere: not at its own node, and the whole tree carries no file
beyond the limit. -/
theorem claim_c2 (paths : List (List String)) (root : List String)
    (md : Option Nat)
    (hroot : ∀ p ∈ paths, leadsWith root p = true ∧ root.length < p.length)
    (hnd : paths.Nodup)
    (p : List String) (hp : p ∈ paths) (ds : List String) (f : String)
    (hdec : stripRoot root p = ds ++ [f]) :
    (mdAllows md (ds.length + 1) = true →
      occsAt ds f (build_tree paths root md) = 1) ∧
    (mdAllows md (ds.length + 1) = false →
      occsAt ds f (build_tree paths root md) = 0 ∧
      depthOkO md 0 (build_tree paths root md) = true) := by
  have hinj : ∀ x ∈ paths, ∀ y ∈ paths,
      stripRoot root x = stripRoot root y → x = y := by
    intro x hx y hy he
    rw [stripRoot_of_leads root x (hroot x hx).1,
      stripRoot_of_leads root y (hroot y hy).1] at he
    calc x = root ++ x.drop root.length :=
          (leadsWith_recover root x (hroot x hx).1).symm
      _ = root ++ y.drop root.length := by rw [he]
      _ = y := leadsWith_recover root y (hroot y hy).1
  have hndrels : (paths.map (stripRoot root)).Nodup := hnd.map_on hinj
  have hmem : ds ++ [f] ∈ paths.map (stripRoot root) := by
    rw [← hdec]
    exact List.mem_map_of_mem _ hp
  have hcount : (paths.map (stripRoot root)).count (ds ++ [f]) = 1 :=
    count_one_of_nodup _ _ hndrels hmem
  have hocc := occs_foldl md ds f (paths.map (stripRoot root))
    (TreeNode.new (rootName root))
  rw [← build_tree_as_fold, occsAt_new, Nat.zero_add, hcount] at hocc
  constructor
  · intro ha
    rw [mdAllows_eq_not_mdGt] at ha
    have hgt : mdGt md (ds.length + 1) = false := by
      cases hmd : mdGt md (ds.length + 1) <;> simp [hmd] at ha ⊢
    rw [hocc, if_neg (by simp [hgt])]
  · intro ha
    rw [mdAllows_eq_not_mdGt] at ha
    have hgt : mdGt md (ds.length + 1) = true := by
      cases hmd : mdGt md (ds.length + 1) <;> simp [hmd] at ha ⊢
    refine ⟨by rw [hocc, if_pos hgt], ?_⟩
    cases md with
    | none => simp [mdGt] at hgt
    | some m =>
      show depthOkT m 0 (build_tree paths root (some m)) = true
      rw [build_tree_as_fold]
      exact depthOk_foldl m _ _ (depthOkT_new m 0 _)

theorem claim_c2_witness :
    (∀ p ∈ [["r", "a.txt"], ["r", "sub", "b.txt"]],
      leadsWith ["r"] p = true ∧ List.length ["r"] < p.length) ∧
    ([["r", "a.txt"], ["r", "sub", "b.txt"]] :
        List (List String)).Nodup ∧
    occsAt [] "a.txt"
      (build_tree [["r", "a.txt"], ["r", "sub", "b.txt"]] ["r"]
        (some 1)) = 1 ∧
    occsAt ["sub"] "b.txt"
      (build_tree [["r", "a.txt"], ["r", "sub", "b.txt"]] ["r"]
        (some 1)) = 0 ∧
    depthOkO (some 1) 0
      (build_tree [["r", "a.txt"], ["r", "sub", "b.txt"]] ["r"]
        (some 1)) = true :=
  ⟨by decide, by decide,
    (claim_c2 [["r", "a.txt"], ["r", "sub", "b.txt"]] ["r"] (some 1)
      (by decide) (by decide) ["r", "a.txt"] (by decide) [] "a.txt"
      (by decide)).1 (by decide),
    ((claim_c2 [["r", "a.txt"], ["r", "sub", "b.txt"]] ["r"] (some 1)
      (by decide) (by decide) ["r", "sub", "b.txt"] (by decide) ["sub"]
      "b.txt" (by decide)).2 (by decide)).1,
    ((claim_c2 [["r", "a.txt"], ["r", "sub", "b.txt"]] ["r"] (some 1)
      (by decide) (by decide) ["r", "sub", "b.txt"] (by decide) ["sub"]
      "b.txt" (by decide)).2 (by decide)).2⟩

/-- C9: `build_tree` is a total function of its arguments, and a path not
below the root is inserted whole: the failed strip is absorbed
(`unwrap_or(p)`) and the full unstripped component sequence lands under
the root node — the path is neither dropped nor an error raised, its file
occurring once at the node addressed by its full directory prefix. -/
theorem claim_c9 (root p ds : List String) (f : String) (md : Option Nat)
    (hdec : p = ds ++ [f]) (h : leadsWith root p = false)
    (hok : mdAllows md (ds.length + 1) = true) :
    build_tree [p] root md = insS md 0 p (TreeNode.new (rootName root)) ∧
    occsAt ds f (build_tree [p] root md) = 1 := by
  subst hdec
  have hstrip : stripRoot root (ds ++ [f]) = ds ++ [f] :=
    stripRoot_of_not root _ h
  have hb : build_tree [ds ++ [f]] root md =
      insS md 0 (ds ++ [f]) (TreeNode.new (rootName root)) := by
    rw [build_tree_as_fold]
    simp [hstrip]
  refine ⟨hb, ?_⟩
  rw [hb]
  have hgt : mdGt md (0 + ds.length + 1) = false := by
    rw [mdAllows_eq_not_mdGt] at hok
    rw [Nat.zero_add]
    cases hmd : mdGt md (ds.length + 1) <;> simp [hmd] at hok ⊢
  rw [occs_insS_hit md ds f 0 _ hgt, occsAt_new]

theorem claim_c9_witness :
    (["q", "x.md"] : List String) = ["q"] ++ ["x.md"] ∧
    leadsWith ["r"] ["q", "x.md"] = false ∧
    mdAllows none 2 = true ∧
    (build_tree [["q", "x.md"]] ["r"] none =
        insS none 0 ["q", "x.md"] (TreeNode.new (rootName ["r"])) ∧
      occsAt ["q"] "x.md" (build_tree [["q", "x.md"]] ["r"] none) = 1) :=
  ⟨rfl, by decide, rfl,
    claim_c9 ["r"] ["q", "x.md"] ["q"] "x.md" none rfl (by decide) rfl⟩

/-! ## Key/name invariant (C10) -/

theorem TreeNode_new_name (s : String) : (TreeNode.new s).name = s := rfl

theorem keysMatch_new (s : String) : keysMatch (TreeNode.new s) = true := rfl

theorem insS_name (md : Option Nat) : ∀ (rel : List String) (i : Nat)
    (t : TreeNode), (insS md i rel t).name = t.name
  | [], _, t => by rw [insS_nil]
  | [x], i, .node n dm fs => by
    rw [insS_single]
    by_cases hb : mdGt md (i + 1) = true
    · rw [if_pos (by simp [hb])]
    · rw [if_neg (by simp at hb; simp [hb])]
      rfl
  | x :: y :: r, i, .node n dm fs => by
    rw [insS_cons md i x (y :: r) (by simp) n dm fs]
    by_cases hb : mdGt md (i + 1) = true
    · rw [if_pos (by simp [hb])]
    · rw [if_neg (by simp at hb; simp [hb])]
      rfl

theorem keysMatchD_find : ∀ (dm : DirMap) (k : String) (c : TreeNode),
    keysMatchD dm = true → dirFind k dm = some c →
    c.name = k ∧ keysMatch c = true
  | .nil, _, _, _, hf => by simp [dirFind] at hf
  | .cons a t rest, k, c, hd, hf => by
    simp only [keysMatchD, Bool.and_eq_true, beq_iff_eq] at hd
    unfold dirFind at hf
    by_cases hk : k = a
    · subst hk
      rw [if_pos rfl] at hf
      rw [← Option.some.inj hf]
      exact ⟨(hd.1.1).symm, hd.1.2⟩
    · rw [if_neg hk] at hf
      exact keysMatchD_find rest k c hd.2 hf

theorem keysMatchD_upsert : ∀ (dm : DirMap) (k : String) (v : TreeNode),
    keysMatchD dm = true → v.name = k → keysMatch v = true →
    keysMatchD (dirUpsert k v dm) = true
  | .nil, k, v, _, hn, hv => by
    simp only [dirUpsert, keysMatchD, Bool.and_eq_true, beq_iff_eq]
    exact ⟨⟨hn.symm, hv⟩, trivial⟩
  | .cons a t rest, k, v, hd, hn, hv => by
    simp only [keysMatchD, Bool.and_eq_true, beq_iff_eq] at hd
    unfold dirUpsert
    by_cases h1 : k < a
    · rw [if_pos h1]
      simp only [keysMatchD, Bool.and_eq_true, beq_iff_eq]
      exact ⟨⟨hn.symm, hv⟩, ⟨hd.1.1, hd.1.2⟩, hd.2⟩
    · by_cases h2 : k = a
      · rw [if_neg h1, if_pos h2]
        simp only [keysMatchD, Bool.and_eq_true, beq_iff_eq]
        exact ⟨⟨hn.symm, hv⟩, hd.2⟩
      · rw [if_neg h1, if_neg h2]
        simp only [keysMatchD, Bool.and_eq_true, beq_iff_eq]
        exact ⟨⟨hd.1.1, hd.1.2⟩, keysMatchD_upsert rest k v hd.2 hn hv⟩

theorem keysMatch_insS (md : Option Nat) : ∀ (rel : List String) (i : Nat)
    (t : TreeNode), keysMatch t = true →
    keysMatch (insS md i rel t) = true
  | [], _, t, h => by rwa [insS_nil]
  | [x], i, .node n dm fs, h => by
    rw [insS_single]
    by_cases hb : mdGt md (i + 1) = true
    · rw [if_pos (by simp [hb])]; exact h
    · rw [if_neg (by simp at hb; simp [hb])]; exact h
  | x :: y :: r, i, .node n dm fs, h => by
    rw [insS_cons md i x (y :: r) (by simp) n dm fs]
    by_cases hb : mdGt md (i + 1) = true
    · rw [if_pos (by simp [hb])]; exact h
    · rw [if_neg (by simp at hb; simp [hb])]
      show keysMatchD (dirUpsert x _ dm) = true
      have hdm : keysMatchD dm = true := h
      cases hc : dirFind x dm with
      | some c =>
        have hcprops := keysMatchD_find dm x c hdm hc
        apply keysMatchD_upsert dm x _ hdm
        · simp only [hc, Option.getD_some]
          rw [insS_name md (y :: r) (i + 1) c]
          exact hcprops.1
        · simp only [hc, Option.getD_some]
          exact keysMatch_insS md (y :: r) (i + 1) c hcprops.2
      | none =>
        apply keysMatchD_upsert dm x _ hdm
        · simp only [hc, Option.getD_none]
          rw [insS_name md (y :: r) (i + 1) (TreeNode.new x)]
          rfl
        · simp only [hc, Option.getD_none]
          exact keysMatch_insS md (y :: r) (i + 1) (TreeNode.new x) rfl

theorem keysMatch_foldl (md : Option Nat) :
    ∀ (l : List (List String)) (t : TreeNode), keysMatch t = true →
      keysMatch (l.foldl (fun acc rel => insS md 0 rel acc) t) = true
  | [], _, h => h
  | rel :: l, t, h => by
    rw [List.foldl_cons]
    exact keysMatch_foldl md l _ (keysMatch_insS md rel 0 t h)

theorem renderSortT_name (md : Option Nat) (lvl : Nat) :
    ∀ t : TreeNode, (renderSortT md lvl t).name = t.name
  | .node n dm fs => rfl

mutual
theorem keysMatch_renderSortT : ∀ (t : TreeNode) (md : Option Nat)
    (lvl : Nat), keysMatch t = true →
    keysMatch (renderSortT md lvl t) = true
  | .node n dm fs, md, lvl, h => by
    show keysMatchD (renderSortD md lvl dm) = true
    exact keysMatchD_renderSortD dm md lvl h

theorem keysMatchD_renderSortD : ∀ (dm : DirMap) (md : Option Nat)
    (lvl : Nat), keysMatchD dm = true →
    keysMatchD (renderSortD md lvl dm) = true
  | .nil, _, _, _ => rfl
  | .cons k v rest, md, lvl, h => by
    simp only [keysMatchD, Bool.and_eq_true, beq_iff_eq] at h
    simp only [renderSortD, keysMatchD, Bool.and_eq_true, beq_iff_eq]
    refine ⟨⟨?_, ?_⟩, keysMatchD_renderSortD rest md lvl h.2⟩
    · by_cases hr : mdRecurse md lvl = true
      · rw [if_pos hr, renderSortT_name]
        exact h.1.1
      · rw [if_neg hr]
        exact h.1.1
    · by_cases hr : mdRecurse md lvl = true
      · rw [if_pos hr]
        exact keysMatch_renderSortT v md (lvl + 1) h.1.2
      · rw [if_neg hr]
        exact h.1.2
end

/-- C10: in every tree returned by `build_tree`, each `dirs` entry's key
equals the child node's `name`, recursively; and the in-place file sort
performed while rendering (which touches only file lists) preserves this
invariant. -/
theorem claim_c10 (paths : List (List String)) (root : List String)
    (md mdRender : Option Nat) (lvl : Nat) :
    keysMatch (build_tree paths root md) = true ∧
    keysMatch (renderSortT mdRender lvl (build_tree paths root md)) =
      true := by
  have h1 : keysMatch (build_tree paths root md) = true := by
    rw [build_tree_as_fold]
    exact keysMatch_foldl md _ _ (keysMatch_new _)
  exact ⟨h1, keysMatch_renderSortT _ mdRender lvl h1⟩

/-! ## Sorted directories and rendering order (C7) -/

theorem dirsSortedT_new (s : String) :
    dirsSortedT (TreeNode.new s) = true := rfl

theorem ltHead_upsert : ∀ (dm : DirMap) (k j : String) (v : TreeNode),
    ltHead j dm = true → j < k → ltHead j (dirUpsert k v dm) = true
  | .nil, k, j, v, _, hjk => by simp [dirUpsert, ltHead, hjk]
  | .cons a t rest, k, j, v, h, hjk => by
    simp only [ltHead, decide_eq_true_eq] at h
    unfold dirUpsert
    by_cases h1 : k < a
    · rw [if_pos h1]
      simp only [ltHead, decide_eq_true_eq]
      exact hjk
    · by_cases h2 : k = a
      · rw [if_neg h1, if_pos h2]
        simp only [ltHead, decide_eq_true_eq]
        exact hjk
      · rw [if_neg h1, if_neg h2]
        simp only [ltHead, decide_eq_true_eq]
        exact h

theorem dirsSortedD_find : ∀ (dm : DirMap) (k : String) (c : TreeNode),
    dirsSortedD dm = true → dirFind k dm = some c →
    dirsSortedT c = true
  | .nil, _, _, _, hf => by simp [dirFind] at hf
  | .cons a t rest, k, c, hd, hf => by
    simp only [dirsSortedD, Bool.and_eq_true] at hd
    unfold dirFind at hf
    by_cases hk : k = a
    · subst hk
      rw [if_pos rfl] at hf
      rw [← Option.some.inj hf]
      exact hd.1.1
    · rw [if_neg hk] at hf
      exact dirsSortedD_find rest k c hd.2 hf

theorem dirsSortedD_upsert : ∀ (dm : DirMap) (k : String) (v : TreeNode),
    dirsSortedD dm = true → dirsSortedT v = true →
    dirsSortedD (dirUpsert k v dm) = true
  | .nil, k, v, _, hv => by simp [dirUpsert, dirsSortedD, ltHead, hv]
  | .cons a t rest, k, v, hd, hv => by
    simp only [dirsSortedD, Bool.and_eq_true] at hd
    unfold dirUpsert
    by_cases h1 : k < a
    · simp only [if_pos h1]
      simp only [dirsSortedD, ltHead, Bool.and_eq_true, decide_eq_true_eq]
      exact ⟨⟨hv, h1⟩, ⟨⟨hd.1.1, hd.1.2⟩, hd.2⟩⟩
    · by_cases h2 : k = a
      · subst h2
        simp only [if_neg h1, if_pos rfl]
        simp only [dirsSortedD, Bool.and_eq_true]
        exact ⟨⟨hv, hd.1.2⟩, hd.2⟩
      · simp only [if_neg h1, if_neg h2]
        simp only [dirsSortedD, Bool.and_eq_true]
        have hak : a < k := by
          rcases lt_trichotomy k a with h | h | h
          · exact absurd h h1
          · exact absurd h h2
          · exact h
        exact ⟨⟨hd.1.1, ltHead_upsert rest k a v hd.1.2 hak⟩,
          dirsSortedD_upsert rest k v hd.2 hv⟩

theorem dirsSorted_insS (md : Option Nat) : ∀ (rel : List String) (i : Nat)
    (t : TreeNode), dirsSortedT t = true →
    dirsSortedT (insS md i rel t) = true
  | [], _, t, h => by rwa [insS_nil]
  | [x], i, .node n dm fs, h => by
    rw [insS_single]
    by_cases hb : mdGt md (i + 1) = true
    · rw [if_pos (by simp [hb])]; exact h
    · rw [if_neg (by simp at hb; simp [hb])]; exact h
  | x :: y :: r, i, .node n dm fs, h => by
    rw [insS_cons md i x (y :: r) (by simp) n dm fs]
    by_cases hb : mdGt md (i + 1) = true
    · rw [if_pos (by simp [hb])]; exact h
    · rw [if_neg (by simp at hb; simp [hb])]
      show dirsSortedD (dirUpsert x _ dm) = true
      have hdm : dirsSortedD dm = true := h
      apply dirsSortedD_upsert dm x _ hdm
      apply dirsSorted_insS md (y :: r) (i + 1)
      cases hc : dirFind x dm with
      | some c =>
        simp only [hc, Option.getD_some]
        exact dirsSortedD_find dm x c hdm hc
      | none =>
        simp only [hc, Option.getD_none]
        exact dirsSortedT_new x

theorem dirsSorted_foldl (md : Option Nat) :
    ∀ (l : List (List String)) (t : TreeNode), dirsSortedT t = true →
      dirsSortedT (l.foldl (fun acc rel => insS md 0 rel acc) t) = true
  | [], _, h => h
  | rel :: l, t, h => by
    rw [List.foldl_cons]
    exact dirsSorted_foldl md l _ (dirsSorted_insS md rel 0 t h)

theorem invariants_nodeAt : ∀ (ds : List String) (t t' : TreeNode),
    dirsSortedT t = true → keysMatch t = true →
    nodeAt ds t = some t' →
    dirsSortedT t' = true ∧ keysMatch t' = true
  | [], t, t', hs, hk, h => by
    rw [← Option.some.inj h]
    exact ⟨hs, hk⟩
  | d :: rest, .node n dm fs, t', hs, hk, h => by
    have hs' : dirsSortedD dm = true := hs
    have hk' : keysMatchD dm = true := hk
    cases hc : dirFind d dm with
    | some c =>
      have hn : nodeAt (d :: rest) (TreeNode.node n dm fs) =
          nodeAt rest c := by
        simp only [nodeAt, hc]
      rw [hn] at h
      exact invariants_nodeAt rest c t'
        (dirsSortedD_find dm d c hs' hc)
        (keysMatchD_find dm d c hk' hc).2 h
    | none =>
      have hn : nodeAt (d :: rest) (TreeNode.node n dm fs) = none := by
        simp only [nodeAt, hc]
      rw [hn] at h
      exact absurd h (by simp)

theorem childNames_ascend : ∀ (dm : DirMap),
    dirsSortedD dm = true → keysMatchD dm = true →
    List.Chain' (fun a b : String => a < b) (childNames dm)
  | .nil, _, _ => List.chain'_nil
  | .cons k t rest, hs, hk => by
    simp only [dirsSortedD, Bool.and_eq_true] at hs
    simp only [keysMatchD, Bool.and_eq_true, beq_iff_eq] at hk
    have htail := childNames_ascend rest hs.2 hk.2
    cases rest with
    | nil => exact List.chain'_singleton _
    | cons k' t' rest' =>
      simp only [childNames] at htail ⊢
      rw [List.chain'_cons]
      refine ⟨?_, htail⟩
      have h1 : t.name = k := hk.1.1.symm
      have h2 : t'.name = k' := by
        have := hk.2
        simp only [keysMatchD, Bool.and_eq_true, beq_iff_eq] at this
        exact this.1.1.symm
      have h3 : k < k' := by
        have := hs.1.2
        simp only [ltHead, decide_eq_true_eq] at this
        exact this
      rw [h1, h2]
      exact h3

theorem renderNode_eq : ∀ (t : TreeNode) (md : Option Nat) (ind lvl : Nat),
    renderNode md ind lvl t =
      (if lvl == 0 then [t.name ++ "/"] else []) ++
        renderDirs md ind lvl t.dirs ++
        (sortFilesCI t.files).map (fun f => indentStr ind lvl ++ f)
  | .node n dm fs, _, _, _ => rfl

/-- C7: in the rendered text of a built tree, every node emits its
directory children first (in ascending raw-name order, keys being
strictly sorted) and only then its files, which are sorted by the
case-insensitive order — byte order for directories versus
case-insensitive order for files, at every node of the tree. -/
theorem claim_c7 (paths : List (List String)) (root : List String)
    (md : Option Nat) (ds : List String) (t' : TreeNode) (ind lvl : Nat)
    (h : nodeAt ds (build_tree paths root md) = some t') :
    List.Chain' (fun a b : String => a < b) (childNames t'.dirs) ∧
    List.Sorted ciLe (sortFilesCI t'.files) ∧
    renderNode md ind lvl t' =
      (if lvl == 0 then [t'.name ++ "/"] else []) ++
        renderDirs md ind lvl t'.dirs ++
        (sortFilesCI t'.files).map (fun f => indentStr ind lvl ++ f) := by
  have hsorted : dirsSortedT (build_tree paths root md) = true := by
    rw [build_tree_as_fold]
    exact dirsSorted_foldl md _ _ (dirsSortedT_new _)
  have hkeys : keysMatch (build_tree paths root md) = true := by
    rw [build_tree_as_fold]
    exact keysMatch_foldl md _ _ (keysMatch_new _)
  obtain ⟨hs', hk'⟩ := invariants_nodeAt ds _ t' hsorted hkeys h
  refine ⟨?_, ?_, renderNode_eq t' md ind lvl⟩
  · cases ht : t' with
    | node n dm fs =>
      have hs'' : dirsSortedD dm = true := by rw [ht] at hs'; exact hs'
      have hk'' : keysMatchD dm = true := by rw [ht] at hk'; exact hk'
      exact childNames_ascend dm hs'' hk''
  · exact List.sorted_insertionSort ciLe t'.files

theorem claim_c7_witness :
    nodeAt [] egTree = some egTree ∧
    List.Chain' (fun a b : String => a < b) (childNames egTree.dirs) ∧
    List.Sorted ciLe (sortFilesCI egTree.files) ∧
    renderNode none 5 0 egTree =
      (if (0 : Nat) == 0 then [egTree.name ++ "/"] else []) ++
        renderDirs none 5 0 egTree.dirs ++
        (sortFilesCI egTree.files).map (fun f => indentStr 5 0 ++ f) :=
  ⟨rfl,
    claim_c7 [["r", "b.txt"], ["r", "A.txt"], ["r", "z", "c.md"],
      ["r", "a", "d.md"]] ["r"] none [] egTree 5 0 rfl⟩

/-! ## Order independence of build_tree (C8) -/

theorem dirUpsert_lt (k a : String) (v t : TreeNode) (rest : DirMap)
    (h : k < a) :
    dirUpsert k v (.cons a t rest) = .cons k v (.cons a t rest) := by
  unfold dirUpsert
  rw [if_pos h]

theorem dirUpsert_keq (k a : String) (v t : TreeNode) (rest : DirMap)
    (h : k = a) : dirUpsert k v (.cons a t rest) = .cons k v rest := by
  unfold dirUpsert
  rw [if_neg (by rw [h]; exact lt_irrefl a), if_pos h]

theorem dirUpsert_gt (k a : String) (v t : TreeNode) (rest : DirMap)
    (h1 : ¬k < a) (h2 : k ≠ a) :
    dirUpsert k v (.cons a t rest) = .cons a t (dirUpsert k v rest) := by
  simp only [dirUpsert]
  rw [if_neg h1, if_neg h2]

theorem dirUpsert_collapse : ∀ (dm : DirMap) (k : String) (v w : TreeNode),
    dirUpsert k v (dirUpsert k w dm) = dirUpsert k v dm
  | .nil, k, v, w => by
    show dirUpsert k v (.cons k w .nil) = .cons k v .nil
    rw [dirUpsert_keq k k v w .nil rfl]
  | .cons a t rest, k, v, w => by
    by_cases h1 : k < a
    · rw [dirUpsert_lt k a w t rest h1, dirUpsert_lt k a v t rest h1,
        dirUpsert_keq k k v w _ rfl]
    · by_cases h2 : k = a
      · rw [dirUpsert_keq k a w t rest h2, dirUpsert_keq k a v t rest h2,
        dirUpsert_keq k k v w rest rfl]
      · rw [dirUpsert_gt k a w t rest h1 h2, dirUpsert_gt k a v t rest h1 h2,
          dirUpsert_gt k a v t _ h1 h2, dirUpsert_collapse rest k v w]

theorem dirUpsert_comm : ∀ (dm : DirMap) (k j : String) (v w : TreeNode),
    k ≠ j →
    dirUpsert k v (dirUpsert j w dm) = dirUpsert j w (dirUpsert k v dm)
  | .nil, k, j, v, w, hkj => by
    show dirUpsert k v (.cons j w .nil) = dirUpsert j w (.cons k v .nil)
    rcases lt_trichotomy k j with h | h | h
    · rw [dirUpsert_lt k j v w .nil h,
        dirUpsert_gt j k w v .nil (lt_asymm h) (Ne.symm hkj)]
      rfl
    · exact absurd h hkj
    · rw [dirUpsert_gt k j v w .nil (lt_asymm h) hkj,
        dirUpsert_lt j k w v .nil h]
      rfl
  | .cons a t rest, k, j, v, w, hkj => by
    rcases lt_trichotomy k a with hka | hka | hka <;>
      rcases lt_trichotomy j a with hja | hja | hja
    · -- k < a, j < a
      rcases lt_trichotomy k j with hkj' | he | hjk'
      · rw [dirUpsert_lt j a w t rest hja,
          dirUpsert_lt k a v t rest hka,
          dirUpsert_lt k j v w (.cons a t rest) hkj',
          dirUpsert_gt j k w v (.cons a t rest) (lt_asymm hkj')
            (Ne.symm hkj),
          dirUpsert_lt j a w t rest hja]
      · exact absurd he hkj
      · rw [dirUpsert_lt j a w t rest hja,
          dirUpsert_gt k j v w (.cons a t rest) (lt_asymm hjk') hkj,
          dirUpsert_lt k a v t rest hka,
          dirUpsert_lt j k w v (.cons a t rest) hjk']
    · -- k < a, j = a
      have hkja : k < j := lt_of_lt_of_eq hka hja.symm
      rw [dirUpsert_keq j a w t rest hja,
        dirUpsert_lt k j v w rest hkja,
        dirUpsert_lt k a v t rest hka,
        dirUpsert_gt j k w v (.cons a t rest) (lt_asymm hkja)
          (Ne.symm hkj),
        dirUpsert_keq j a w t rest hja]
    · -- k < a, a < j
      have hkj' : k < j := lt_trans hka hja
      rw [dirUpsert_gt j a w t rest (lt_asymm hja) (ne_of_gt hja),
        dirUpsert_lt k a v t (dirUpsert j w rest) hka,
        dirUpsert_lt k a v t rest hka,
        dirUpsert_gt j k w v (.cons a t rest) (lt_asymm hkj')
          (Ne.symm hkj),
        dirUpsert_gt j a w t rest (lt_asymm hja) (ne_of_gt hja)]
    · -- k = a, j < a
      have hjka : j < k := lt_of_lt_of_eq hja hka.symm
      rw [dirUpsert_lt j a w t rest hja,
        dirUpsert_gt k j v w (.cons a t rest) (lt_asymm hjka) hkj,
        dirUpsert_keq k a v t rest hka,
        dirUpsert_lt j k w v rest hjka]
    · -- k = a, j = a
      exact absurd (hka.trans hja.symm) hkj
    · -- k = a, a < j
      have hkja : k < j := lt_of_eq_of_lt hka hja
      rw [dirUpsert_gt j a w t rest (lt_asymm hja) (ne_of_gt hja),
        dirUpsert_keq k a v t (dirUpsert j w rest) hka,
        dirUpsert_keq k a v t rest hka,
        dirUpsert_gt j k w v rest (lt_asymm hkja) (Ne.symm hkj)]
    · -- a < k, j < a
      have hjka : j < k := lt_trans hja hka
      rw [dirUpsert_lt j a w t rest hja,
        dirUpsert_gt k j v w (.cons a t rest) (lt_asymm hjka) hkj,
        dirUpsert_gt k a v t rest (lt_asymm hka) (ne_of_gt hka),
        dirUpsert_lt j a w t (dirUpsert k v rest) hja]
    · -- a < k, j = a
      have hjka : j < k := lt_of_eq_of_lt hja hka
      rw [dirUpsert_keq j a w t rest hja,
        dirUpsert_gt k j v w rest (lt_asymm hjka) hkj,
        dirUpsert_gt k a v t rest (lt_asymm hka) (ne_of_gt hka),
        dirUpsert_keq j a w t (dirUpsert k v rest) hja]
    · -- a < k, a < j
      rw [dirUpsert_gt j a w t rest (lt_asymm hja) (ne_of_gt hja),
        dirUpsert_gt k a v t (dirUpsert j w rest) (lt_asymm hka)
          (ne_of_gt hka),
        dirUpsert_gt k a v t rest (lt_asymm hka) (ne_of_gt hka),
        dirUpsert_gt j a w t (dirUpsert k v rest) (lt_asymm hja)
          (ne_of_gt hja),
        dirUpsert_comm rest k j v w hkj]

theorem sortFilesRaw_perm_eq (l1 l2 : List String) (h : l1.Perm l2) :
    sortFilesRaw l1 = sortFilesRaw l2 :=
  List.eq_of_perm_of_sorted
    ((List.perm_insertionSort rawLe l1).trans
      (h.trans (List.perm_insertionSort rawLe l2).symm))
    (List.sorted_insertionSort rawLe l1)
    (List.sorted_insertionSort rawLe l2)

theorem files_perm_of_sort_eq (l1 l2 : List String)
    (h : sortFilesRaw l1 = sortFilesRaw l2) : l1.Perm l2 := by
  have h1 : (sortFilesRaw l1).Perm l1 := List.perm_insertionSort rawLe l1
  have h2 : (sortFilesRaw l1).Perm l2 := by
    rw [h]
    exact List.perm_insertionSort rawLe l2
  exact h1.symm.trans h2

theorem canonD_nil_inv : ∀ (dm : DirMap), canonD dm = .nil → dm = .nil
  | .nil, _ => rfl
  | .cons _ _ _, h => by
    simp only [canonD] at h
    exact DirMap.noConfusion h

theorem canonD_cons_inv : ∀ (dm : DirMap) (k : String) (c : TreeNode)
    (rest' : DirMap), canonD dm = .cons k c rest' →
    ∃ t drest, dm = .cons k t drest ∧ canonT t = c ∧ canonD drest = rest'
  | .nil, _, _, _, h => by
    simp only [canonD] at h
    exact DirMap.noConfusion h
  | .cons a t dr, k, c, rest', h => by
    simp only [canonD] at h
    injection h with h1 h2 h3
    exact ⟨t, dr, by rw [h1], h2, h3⟩

theorem canonD_find : ∀ (dm1 dm2 : DirMap) (k : String),
    canonD dm1 = canonD dm2 →
    Option.map canonT (dirFind k dm1) = Option.map canonT (dirFind k dm2)
  | .nil, dm2, k, h => by
    have h2 : dm2 = .nil := canonD_nil_inv dm2 h.symm
    subst h2
    rfl
  | .cons a t r, dm2, k, h => by
    obtain ⟨t2, r2, rfl, ht, hr⟩ :=
      canonD_cons_inv dm2 a (canonT t) (canonD r) h.symm
    unfold dirFind
    by_cases hk : k = a
    · rw [if_pos hk, if_pos hk]
      show some (canonT t) = some (canonT t2)
      rw [ht]
    · rw [if_neg hk, if_neg hk]
      exact canonD_find r r2 k hr.symm

theorem canonD_upsert : ∀ (dm1 dm2 : DirMap) (k : String)
    (v1 v2 : TreeNode), canonD dm1 = canonD dm2 → canonT v1 = canonT v2 →
    canonD (dirUpsert k v1 dm1) = canonD (dirUpsert k v2 dm2)
  | .nil, dm2, k, v1, v2, h, hv => by
    have h2 : dm2 = .nil := canonD_nil_inv dm2 h.symm
    subst h2
    show canonD (.cons k v1 .nil) = canonD (.cons k v2 .nil)
    simp only [canonD]
    rw [hv]
  | .cons a t r, dm2, k, v1, v2, h, hv => by
    obtain ⟨t2, r2, rfl, ht, hr⟩ :=
      canonD_cons_inv dm2 a (canonT t) (canonD r) h.symm
    by_cases h1 : k < a
    · rw [dirUpsert_lt k a v1 t r h1, dirUpsert_lt k a v2 t2 r2 h1]
      simp only [canonD]
      rw [hv, ht, hr]
    · by_cases h2 : k = a
      · rw [dirUpsert_keq k a v1 t r h2, dirUpsert_keq k a v2 t2 r2 h2]
        simp only [canonD]
        rw [hv, hr]
      · rw [dirUpsert_gt k a v1 t r h1 h2, dirUpsert_gt k a v2 t2 r2 h1 h2]
        simp only [canonD]
        rw [ht, canonD_upsert r r2 k v1 v2 hr.symm hv]

theorem canonT_child (dm1 dm2 : DirMap) (x : String)
    (hd : canonD dm1 = canonD dm2) :
    canonT ((dirFind x dm1).getD (TreeNode.new x)) =
      canonT ((dirFind x dm2).getD (TreeNode.new x)) := by
  have h := canonD_find dm1 dm2 x hd
  cases h1 : dirFind x dm1 with
  | some c1 =>
    cases h2 : dirFind x dm2 with
    | some c2 =>
      rw [h1, h2] at h
      have h' : some (canonT c1) = some (canonT c2) := h
      simp only [Option.getD_some]
      exact Option.some.inj h'
    | none =>
      rw [h1, h2] at h
      exact Option.noConfusion h
  | none =>
    cases h2 : dirFind x dm2 with
    | some c2 =>
      rw [h1, h2] at h
      exact Option.noConfusion h
    | none => rfl

theorem insS_single_blocked (md : Option Nat) (i : Nat) (z n : String)
    (dm : DirMap) (fs : List String) (hb : mdGt md (i + 1) = true) :
    insS md i [z] (.node n dm fs) = .node n dm fs := by
  rw [insS_single, if_pos (by simp [hb])]

theorem insS_single_ok (md : Option Nat) (i : Nat) (z n : String)
    (dm : DirMap) (fs : List String) (hb : mdGt md (i + 1) = false) :
    insS md i [z] (.node n dm fs) = .node n dm (fs ++ [z]) := by
  rw [insS_single, if_neg (by simp [hb])]

theorem insS_cons2_blocked (md : Option Nat) (i : Nat) (z w : String)
    (r : List String) (n : String) (dm : DirMap) (fs : List String)
    (hb : mdGt md (i + 1) = true) :
    insS md i (z :: w :: r) (.node n dm fs) = .node n dm fs := by
  rw [insS_cons md i z (w :: r) (by simp) n dm fs, if_pos (by simp [hb])]

theorem insS_cons2_ok (md : Option Nat) (i : Nat) (z w : String)
    (r : List String) (n : String) (dm : DirMap) (fs : List String)
    (hb : mdGt md (i + 1) = false) :
    insS md i (z :: w :: r) (.node n dm fs) =
      .node n
        (dirUpsert z
          (insS md (i + 1) (w :: r) ((dirFind z dm).getD (TreeNode.new z)))
          dm) fs := by
  rw [insS_cons md i z (w :: r) (by simp) n dm fs, if_neg (by simp [hb])]

theorem canonT_insS (md : Option Nat) : ∀ (rel : List String) (i : Nat)
    (t1 t2 : TreeNode), canonT t1 = canonT t2 →
    canonT (insS md i rel t1) = canonT (insS md i rel t2)
  | [], _, t1, t2, h => by rwa [insS_nil, insS_nil]
  | [x], i, .node n1 dm1 fs1, .node n2 dm2 fs2, h => by
    have h' := h
    simp only [canonT] at h'
    injection h' with hn hd hf
    by_cases hb : mdGt md (i + 1) = true
    · rw [insS_single_blocked md i x n1 dm1 fs1 hb,
        insS_single_blocked md i x n2 dm2 fs2 hb]
      exact h
    · have hb' : mdGt md (i + 1) = false := by simpa using hb
      rw [insS_single_ok md i x n1 dm1 fs1 hb',
        insS_single_ok md i x n2 dm2 fs2 hb']
      simp only [canonT]
      rw [hn, hd,
        sortFilesRaw_perm_eq _ _
          ((files_perm_of_sort_eq fs1 fs2 hf).append_right [x])]
  | x :: y :: r, i, .node n1 dm1 fs1, .node n2 dm2 fs2, h => by
    have h' := h
    simp only [canonT] at h'
    injection h' with hn hd hf
    by_cases hb : mdGt md (i + 1) = true
    · rw [insS_cons2_blocked md i x y r n1 dm1 fs1 hb,
        insS_cons2_blocked md i x y r n2 dm2 fs2 hb]
      exact h
    · have hb' : mdGt md (i + 1) = false := by simpa using hb
      rw [insS_cons2_ok md i x y r n1 dm1 fs1 hb',
        insS_cons2_ok md i x y r n2 dm2 fs2 hb']
      simp only [canonT]
      rw [hn, hf]
      have hch := canonT_insS md (y :: r) (i + 1)
        ((dirFind x dm1).getD (TreeNode.new x))
        ((dirFind x dm2).getD (TreeNode.new x))
        (canonT_child dm1 dm2 x hd)
      rw [canonD_upsert dm1 dm2 x _ _ hd hch]

theorem insS_swap (md : Option Nat) : ∀ (a b : List String) (i : Nat)
    (t : TreeNode),
    canonT (insS md i b (insS md i a t)) =
      canonT (insS md i a (insS md i b t))
  | [], b, i, t => by simp only [insS_nil]
  | x :: xs, [], i, t => by simp only [insS_nil]
  | [x], [y], i, .node n dm fs => by
    by_cases hb : mdGt md (i + 1) = true
    · rw [insS_single_blocked md i x n dm fs hb,
        insS_single_blocked md i y n dm fs hb,
        insS_single_blocked md i x n dm fs hb]
    · have hb' : mdGt md (i + 1) = false := by simpa using hb
      rw [insS_single_ok md i x n dm fs hb',
        insS_single_ok md i y n dm fs hb',
        insS_single_ok md i y n dm (fs ++ [x]) hb',
        insS_single_ok md i x n dm (fs ++ [y]) hb']
      simp only [canonT]
      rw [sortFilesRaw_perm_eq (fs ++ [x] ++ [y]) (fs ++ [y] ++ [x])
        (by
          rw [List.append_assoc, List.append_assoc]
          exact List.Perm.append_left fs (List.Perm.swap y x []))]
  | [x], y :: y2 :: yr, i, .node n dm fs => by
    by_cases hb : mdGt md (i + 1) = true
    · rw [insS_single_blocked md i x n dm fs hb,
        insS_cons2_blocked md i y y2 yr n dm fs hb,
        insS_single_blocked md i x n dm fs hb]
    · have hb' : mdGt md (i + 1) = false := by simpa using hb
      rw [insS_single_ok md i x n dm fs hb',
        insS_cons2_ok md i y y2 yr n dm (fs ++ [x]) hb',
        insS_cons2_ok md i y y2 yr n dm fs hb',
        insS_single_ok md i x n
          (dirUpsert y
            (insS md (i + 1) (y2 :: yr)
              ((dirFind y dm).getD (TreeNode.new y))) dm) fs hb']
  | x :: x2 :: xr, [y], i, .node n dm fs => by
    by_cases hb : mdGt md (i + 1) = true
    · rw [insS_cons2_blocked md i x x2 xr n dm fs hb,
        insS_single_blocked md i y n dm fs hb,
        insS_cons2_blocked md i x x2 xr n dm fs hb]
    · have hb' : mdGt md (i + 1) = false := by simpa using hb
      rw [insS_cons2_ok md i x x2 xr n dm fs hb',
        insS_single_ok md i y n
          (dirUpsert x
            (insS md (i + 1) (x2 :: xr)
              ((dirFind x dm).getD (TreeNode.new x))) dm) fs hb',
        insS_single_ok md i y n dm fs hb',
        insS_cons2_ok md i x x2 xr n dm (fs ++ [y]) hb']
  | x :: x2 :: xr, y :: y2 :: yr, i, .node n dm fs => by
    by_cases hb : mdGt md (i + 1) = true
    · rw [insS_cons2_blocked md i x x2 xr n dm fs hb,
        insS_cons2_blocked md i y y2 yr n dm fs hb,
        insS_cons2_blocked md i x x2 xr n dm fs hb]
    · have hb' : mdGt md (i + 1) = false := by simpa using hb
      by_cases hxy : x = y
      · subst hxy
        rw [insS_cons2_ok md i x x2 xr n dm fs hb']
        rw [insS_cons2_ok md i x y2 yr n
          (dirUpsert x
            (insS md (i + 1) (x2 :: xr)
              ((dirFind x dm).getD (TreeNode.new x))) dm) fs hb']
        rw [insS_cons2_ok md i x y2 yr n dm fs hb']
        rw [insS_cons2_ok md i x x2 xr n
          (dirUpsert x
            (insS md (i + 1) (y2 :: yr)
              ((dirFind x dm).getD (TreeNode.new x))) dm) fs hb']
        rw [dirFind_upsert_self dm x
          (insS md (i + 1) (x2 :: xr)
            ((dirFind x dm).getD (TreeNode.new x)))]
        rw [dirFind_upsert_self dm x
          (insS md (i + 1) (y2 :: yr)
            ((dirFind x dm).getD (TreeNode.new x)))]
        simp only [Option.getD_some]
        rw [dirUpsert_collapse dm x
          (insS md (i + 1) (y2 :: yr)
            (insS md (i + 1) (x2 :: xr)
              ((dirFind x dm).getD (TreeNode.new x))))
          (insS md (i + 1) (x2 :: xr)
            ((dirFind x dm).getD (TreeNode.new x)))]
        rw [dirUpsert_collapse dm x
          (insS md (i + 1) (x2 :: xr)
            (insS md (i + 1) (y2 :: yr)
              ((dirFind x dm).getD (TreeNode.new x))))
          (insS md (i + 1) (y2 :: yr)
            ((dirFind x dm).getD (TreeNode.new x)))]
        simp only [canonT]
        rw [canonD_upsert dm dm x
          (insS md (i + 1) (y2 :: yr)
            (insS md (i + 1) (x2 :: xr)
              ((dirFind x dm).getD (TreeNode.new x))))
          (insS md (i + 1) (x2 :: xr)
            (insS md (i + 1) (y2 :: yr)
              ((dirFind x dm).getD (TreeNode.new x)))) rfl
          (insS_swap md (x2 :: xr) (y2 :: yr) (i + 1)
            ((dirFind x dm).getD (TreeNode.new x)))]
      · rw [insS_cons2_ok md i x x2 xr n dm fs hb']
        rw [insS_cons2_ok md i y y2 yr n
          (dirUpsert x
            (insS md (i + 1) (x2 :: xr)
              ((dirFind x dm).getD (TreeNode.new x))) dm) fs hb']
        rw [insS_cons2_ok md i y y2 yr n dm fs hb']
        rw [insS_cons2_ok md i x x2 xr n
          (dirUpsert y
            (insS md (i + 1) (y2 :: yr)
              ((dirFind y dm).getD (TreeNode.new y))) dm) fs hb']
        rw [dirFind_upsert_ne dm y x
          (insS md (i + 1) (x2 :: xr)
            ((dirFind x dm).getD (TreeNode.new x))) (Ne.symm hxy)]
        rw [dirFind_upsert_ne dm x y
          (insS md (i + 1) (y2 :: yr)
            ((dirFind y dm).getD (TreeNode.new y))) hxy]
        rw [dirUpsert_comm dm y x
          (insS md (i + 1) (y2 :: yr)
            ((dirFind y dm).getD (TreeNode.new y)))
          (insS md (i + 1) (x2 :: xr)
            ((dirFind x dm).getD (TreeNode.new x))) (Ne.symm hxy)]

theorem canonT_foldl (md : Option Nat) :
    ∀ (l : List (List String)) (t1 t2 : TreeNode),
      canonT t1 = canonT t2 →
      canonT (l.foldl (fun acc rel => insS md 0 rel acc) t1) =
        canonT (l.foldl (fun acc rel => insS md 0 rel acc) t2)
  | [], _, _, h => h
  | rel :: l, t1, t2, h => by
    rw [List.foldl_cons, List.foldl_cons]
    exact canonT_foldl md l _ _ (canonT_insS md rel 0 t1 t2 h)

theorem canonT_foldl_perm (md : Option Nat) (l1 l2 : List (List String))
    (h : l1.Perm l2) : ∀ t : TreeNode,
    canonT (l1.foldl (fun acc rel => insS md 0 rel acc) t) =
      canonT (l2.foldl (fun acc rel => insS md 0 rel acc) t) := by
  induction h with
  | nil => intro t; rfl
  | cons x _ ih =>
    intro t
    rw [List.foldl_cons, List.foldl_cons]
    exact ih (insS md 0 x t)
  | swap x y l =>
    intro t
    rw [List.foldl_cons, List.foldl_cons, List.foldl_cons, List.foldl_cons]
    exact canonT_foldl md l _ _ (insS_swap md y x 0 t)
  | trans _ _ ih1 ih2 =>
    intro t
    exact (ih1 t).trans (ih2 t)

/-- C8: `build_tree` is order-independent — two permutations of the same
path list build trees with the same canonical form (equal names and
directory structure; file lists equal as multisets, hence as name-sets
for deduplicated input). -/
theorem claim_c8 (l1 l2 : List (List String)) (root : List String)
    (md : Option Nat) (h : l1.Perm l2) :
    canonT (build_tree l1 root md) = canonT (build_tree l2 root md) := by
  rw [build_tree_as_fold, build_tree_as_fold]
  exact canonT_foldl_perm md _ _ (h.map (stripRoot root)) _

theorem claim_c8_witness :
    ([["r", "b.txt"], ["r", "a", "c.md"], ["r", "B.txt"]] :
      List (List String)).Perm
        [["r", "B.txt"], ["r", "b.txt"], ["r", "a", "c.md"]] ∧
    canonT
      (build_tree [["r", "b.txt"], ["r", "a", "c.md"], ["r", "B.txt"]]
        ["r"] none) =
      canonT
        (build_tree [["r", "B.txt"], ["r", "b.txt"], ["r", "a", "c.md"]]
          ["r"] none) :=
  ⟨by decide,
    claim_c8 [["r", "b.txt"], ["r", "a", "c.md"], ["r", "B.txt"]]
      [["r", "B.txt"], ["r", "b.txt"], ["r", "a", "c.md"]] ["r"] none
      (by decide)⟩

/-! ## Discovery: the filesystem walk (C5) and git fallback (C4) -/

/-- C5: evaluation at the failing input.  The walk's `filter_entry`
applies `fs_dir_allow` to every entry without checking its file type, so
a regular file named `env` at depth 1 is dropped from discovery — though
the deny list is documented (and specified) as a directory filter.  The
directory pruning itself (`node_modules`) works as described. -/
theorem claim_c5 :
    list_files_fs ["r"]
      (.cons (.file "env")
        (.cons (.file "a.md")
          (.cons (.dir "node_modules" (.cons (.file "x.js") .nil))
            .nil))) = [["r", "a.md"]] ∧
    fs_dir_allow 1 "env" = false := by
  decide

/-- C4's counterexample: when both git queries run but exit non-zero, the
listing is `.ok []` — an empty git-aware result, not a fallback — and the
reported mode stays `git-aware`, contradicting the claimed fallback to
the filesystem walk with mode `fs-heuristic`. -/
theorem claim_c4_cex :
    list_files_git ⟨.ok ⟨false, []⟩, .ok ⟨false, []⟩⟩ ["r"] false true =
      .ok [] ∧
    discoverFiles false true ⟨.ok ⟨false, []⟩, .ok ⟨false, []⟩⟩ ["r"]
      (.cons (.file "a.md") .nil) false false = ([], "git-aware") ∧
    ¬(discoverFiles false true ⟨.ok ⟨false, []⟩, .ok ⟨false, []⟩⟩ ["r"]
        (.cons (.file "a.md") .nil) false false =
      (list_files_fs ["r"] (.cons (.file "a.md") .nil),
        "fs-heuristic")) :=
  ⟨rfl, by decide, by decide⟩

/-- C4 (amended): only a version-control query that fails to launch (an
IO error) is treated as unavailable — discovery then silently falls back
to the filesystem walk, never surfacing an error; the reported mode
nevertheless remains `git-aware`, and a query that runs but exits
non-zero merely contributes no paths while the (possibly empty) git-aware
result is kept. -/
theorem claim_c4 (noGit gitRootFound : Bool) (env : GitEnv)
    (root : List String) (entries : FsForest)
    (include_ignored hide_secrets : Bool)
    (huse : (gitRootFound && !noGit) = true)
    (herr : list_files_git env root include_ignored (!hide_secrets) =
      .error ()) :
    discoverFiles noGit gitRootFound env root entries include_ignored
      hide_secrets = (list_files_fs root entries, "git-aware") := by
  unfold discoverFiles
  rw [huse, herr]
  simp

theorem claim_c4_witness :
    ((true && !false) = true) ∧
    (list_files_git ⟨.error (), .ok ⟨true, []⟩⟩ ["r"] false (!false) =
      .error ()) ∧
    discoverFiles false true ⟨.error (), .ok ⟨true, []⟩⟩ ["r"]
      (.cons (.file "a.md") .nil) false false =
      (list_files_fs ["r"] (.cons (.file "a.md") .nil), "git-aware") :=
  ⟨rfl, rfl,
    claim_c4 false true ⟨.error (), .ok ⟨true, []⟩⟩ ["r"]
      (.cons (.file "a.md") .nil) false false rfl rfl⟩

end TreeForAI
